import Mathlib

/-!
The nncase quantizer: range tracking, affine parameters, fixed-point multipliers.

A shallow embedding of `src/evaluator/quantizer.cpp` and `src/evaluator/include/ir/quantizer.h`.

Modelling conventions, used throughout:

* A `float` is a rational (`ℚ`): finite, never NaN.  The two arithmetic methods are embedded
  twice.
  - `quantizer.get_quant_param` and `quantizer.get_fixed_mul` (with `get_fixed_mul_pair`) are the
    exact reading: no operation rounds or overflows, `0.001f` is `1/1000`, and the conversion of
    `(1LL << bits) - 1` to `float` is exact.  They describe the formulas the code evaluates;
    the results on range tracking, on the shift of `get_fixed_mul` and on the comparison with
    the reference formulas are stated on them.
  - `quantizer.get_quant_param_binary32` and `quantizer.get_fixed_mul_binary32` (with
    `get_fixed_mul_pair_binary32`) round every float operation to IEEE 754 binary32, to nearest
    with ties to even, and every double operation to binary64; an overflow is an infinity,
    written `none`.  `0.001f` is the float `8589935 / 2^33` and `(1LL << bits) - 1` rounds to a
    float (to `2^bits` from 25 bits on).  The bounds on bias, quantized values and multipliers
    are stated on them, for arguments that are binary32 values (`is_binary32`).
  - The two readings of `get_fixed_mul` agree on binary32 arguments of the representable domain
    when `-1074 ≤ bits ≤ 128` (`get_fixed_mul_binary32_eq_exact`), those of `get_quant_param`
    when no operation rounds (`get_quant_param_binary32_of_exact`).
  `std::numeric_limits<float>::epsilon()` is `2^-23`.
* `int32_t` values are integers (`Int`).  The sums and differences of `max_bits`, `max_shift` and
  the `frexp` exponent in `get_fixed_mul` are taken exactly (for a float argument, whose exponent
  lies in `-148..128`, they stay inside `int32_t` as soon as `max_bits ≥ -2^31 + 129`).  The
  places where the machine width decides the result are modelled explicitly: `1LL << bits` is
  defined for `0 ≤ bits ≤ 62` only, and the conversions `static_cast<int32_t>` (from a float) and
  `static_cast<int8_t>` (from an `int32_t`) are `to_int32` and `int8_cast`.
* `assert` is enabled: a failing assertion is an `Error` result, and so is undefined behaviour
  of a shift or a conversion (`Error.UndefinedBehaviour`).
* `output_connector *` keys are natural numbers; the `unordered_map` is a function from keys to
  optional ranges.
-/

namespace nncase

/-! ## Data model -/

/-- The struct `value_range<float>`: a pair of bounds. -/
structure value_range where
  min : ℚ
  max : ℚ
  deriving DecidableEq

/-- The struct `quant_param_t`: integer bias and float scale. -/
structure quant_param_t where
  bias : Int
  scale : ℚ
  deriving DecidableEq

/-- The struct `fixed_mul`: float multiplier and `int8_t` shift. -/
structure fixed_mul where
  mul : ℚ
  shift : Int
  deriving DecidableEq

/-- Failure modes of the quantizer: the exception of `unordered_map::at`, one constructor per
`assert`, and undefined behaviour of a shift, a float-to-integer conversion or a dereferenced
end iterator.  `EmptySampleSet` is the failure the specification names for an empty sample
sequence; no path of the code produces it. -/
inductive Error where
  | UnknownTensor
  | InvalidQuantizationState
  | InvalidSignedValue
  | MultiplierOutOfRange
  | ShiftOutOfRange
  | PrecisionLost
  | UndefinedBehaviour
  | EmptySampleSet
  deriving DecidableEq

/-- The key type `ir::output_connector *`. -/
abbrev output_connector := Nat

/-- The class `quantizer`: its only member is the map `quant_ranges_`. -/
structure quantizer where
  quant_ranges_ : output_connector → Option value_range

/-- A freshly constructed quantizer: the map is empty. -/
def quantizer.empty : quantizer := ⟨fun _ => none⟩

/-! ## Library primitives -/

/-- The function `std::min(a, b)`: `(b < a) ? b : a`. -/
def std_min {α : Type} [LT α] [DecidableRel (fun (a b : α) => a < b)] (a b : α) : α :=
  if b < a then b else a

/-- The function `std::max(a, b)`: `(a < b) ? b : a`. -/
def std_max {α : Type} [LT α] [DecidableRel (fun (a b : α) => a < b)] (a b : α) : α :=
  if a < b then b else a

/-- The function `std::round`: nearest integer, halfway cases away from zero. -/
def std_round (x : ℚ) : Int :=
  if 0 ≤ x then ⌊x + 1 / 2⌋ else ⌈x - 1 / 2⌉

/-- The function `std::frexp`: mantissa `m` and exponent `e` with `value = m * 2^e` and
`1/2 ≤ |m| < 1`; `(0, 0)` for zero. -/
def frexp (value : ℚ) : ℚ × Int :=
  if value = 0 then (0, 0)
  else
    let e := Int.log 2 |value| + 1
    (value / 2 ^ e, e)

/-- The expression `1LL << bits` on a 64-bit `long long`: defined for `0 ≤ bits ≤ 62`. -/
def shl_one (bits : Int) : Option Int :=
  if 0 ≤ bits ∧ bits ≤ 62 then some (2 ^ bits.toNat) else none

/-- The conversion `static_cast<int32_t>` of an integral float: defined when the value fits. -/
def to_int32 (x : Int) : Option Int :=
  if -2 ^ 31 ≤ x ∧ x ≤ 2 ^ 31 - 1 then some x else none

/-- The conversion `static_cast<int8_t>` of an `int32_t`: reduction modulo `2^8` into
`-128..127`. -/
def int8_cast (x : Int) : Int :=
  (x + 128) % 2 ^ 8 - 128

/-- The constant `std::numeric_limits<float>::epsilon()`. -/
def float_epsilon : ℚ := 1 / 2 ^ 23

/-! ## quantizer.cpp -/

/-- The helper `combine`: the union of two ranges. -/
def combine (lhs rhs : value_range) : value_range :=
  ⟨std_min lhs.min rhs.min, std_max lhs.max rhs.max⟩

/-- The method `quantizer::record(connector, range)`. -/
def quantizer.record (q : quantizer) (connector : output_connector) (range : value_range) :
    quantizer :=
  match q.quant_ranges_ connector with
  | none => ⟨Function.update q.quant_ranges_ connector (some range)⟩
  | some old => ⟨Function.update q.quant_ranges_ connector (some (combine old range))⟩

/-- Lines 47 to 50 of `get_quant_param`: the two clamps applied to the argument `range`. -/
def clamp_zero (range : value_range) : value_range :=
  let range : value_range := if range.max < 0 then ⟨range.min, 0⟩ else range
  if range.min > 0 then ⟨0, range.max⟩ else range

/-- The method `quantizer::get_quant_param(range, bits)` in exact arithmetic: no float operation
rounds, `0.001f` is `1/1000`; `quantizer.get_quant_param_binary32` is the same method with
every operation rounded to binary32. -/
def quantizer.get_quant_param (range : value_range) (bits : Int) : Except Error quant_param_t :=
  let range := clamp_zero range
  let r := range.max - range.min
  let r := if r < 1 / 1000 then 1 / 1000 else r
  match shl_one bits with
  | none => .error .UndefinedBehaviour
  | some p =>
    let scale : ℚ := ((p - 1 : Int) : ℚ) / r
    let bias := std_round (-range.min * scale)
    if bias ≥ 0 then
      match to_int32 bias with
      | none => .error .UndefinedBehaviour
      | some b => .ok ⟨b, scale⟩
    else .error .InvalidQuantizationState

/-- The method `quantizer::get(connector)`: `quant_ranges_.at(&connector)`; the method is
`const`, the quantizer is handed back as it was. -/
def quantizer.get (q : quantizer) (connector : output_connector) :
    Except Error value_range × quantizer :=
  match q.quant_ranges_ connector with
  | none => (.error .UnknownTensor, q)
  | some range => (.ok range, q)

/-- The local `bits` of `get_fixed_mul`: `is_signed ? max_bits - 1 : max_bits`. -/
def fixed_mul_bits (max_bits : Int) (is_signed : Bool) : Int :=
  if is_signed then max_bits - 1 else max_bits

/-- Lines 71 to 93 of `get_fixed_mul`: the pair `(mul, shift)` on which the three closing
assertions are evaluated, in exact arithmetic (the product `mul * std::pow(2, k)` neither rounds
nor overflows); `get_fixed_mul_pair_binary32` stores the product in a binary32 `mul`. -/
def get_fixed_mul_pair (value : ℚ) (max_bits : Int) (max_shift : Nat) (is_signed : Bool) :
    ℚ × Int :=
  let bits := fixed_mul_bits max_bits is_signed
  if |value| > 1 then
    let mul := (frexp value).1
    let mul_shift := (frexp value).2
    let shift := std_min (max_shift : Int) (bits - mul_shift)
    (mul * 2 ^ (shift + mul_shift), shift)
  else if value = 0 then
    (0, 0)
  else
    let mul := (frexp value).1
    let mul_shift := (frexp value).2
    let shift := std_min ((max_shift : Int) + mul_shift) bits
    (mul * 2 ^ shift, shift - mul_shift)

/-- The method `quantizer::get_fixed_mul(value, max_bits, max_shift, is_signed)` in exact
arithmetic; `quantizer.get_fixed_mul_binary32` is the same method on a binary32 `mul` with the
assertions evaluated in double. -/
def quantizer.get_fixed_mul (value : ℚ) (max_bits : Int) (max_shift : Nat) (is_signed : Bool) :
    Except Error fixed_mul :=
  if ¬(is_signed = false ∨ value ≥ 0) then .error .InvalidSignedValue
  else
    let bits := fixed_mul_bits max_bits is_signed
    let mul := (get_fixed_mul_pair value max_bits max_shift is_signed).1
    let shift := (get_fixed_mul_pair value max_bits max_shift is_signed).2
    if ¬(|mul| < 2 ^ bits) then .error .MultiplierOutOfRange
    else if ¬(shift ≥ 0 ∧ shift ≤ max_shift) then .error .ShiftOutOfRange
    else if ¬(|value - mul * 2 ^ (-shift)| ≤ float_epsilon) then .error .PrecisionLost
    else .ok ⟨mul, int8_cast shift⟩

/-- One step of the scan of `std::minmax_element`: a strictly smaller element replaces the
minimum, an element that is not smaller than the maximum replaces the maximum. -/
def minmax_step (acc : ℚ × ℚ) (y : ℚ) : ℚ × ℚ :=
  (if y < acc.1 then y else acc.1, if y < acc.2 then acc.2 else y)

/-- The function `std::minmax_element` over a sequence of floats: the first smallest and the
last largest element under `<`; on an empty sequence both iterators are `end` and there is no
element to read. -/
def minmax_element : List ℚ → Option (ℚ × ℚ)
  | [] => none
  | x :: xs => some (xs.foldl minmax_step (x, x))

/-- The template `quantizer::get_range(begin, end)` of quantizer.h: the two iterators of
`std::minmax_element` are dereferenced without a check. -/
def quantizer.get_range (data : List ℚ) : Option value_range :=
  match minmax_element data with
  | none => none
  | some p => some ⟨p.1, p.2⟩

/-- The method `quantizer::record(connector, data)` on a span of samples:
`record(connector, get_range(data.begin(), data.end()))`. -/
def quantizer.record_span (q : quantizer) (connector : output_connector) (data : List ℚ) :
    Except Error quantizer :=
  match quantizer.get_range data with
  | none => .error .UndefinedBehaviour
  | some range => .ok (q.record connector range)

/-- One call of either overload of `record`. -/
inductive record_call where
  | range (connector : output_connector) (range : value_range)
  | samples (connector : output_connector) (data : List ℚ)

/-- Replaying calls of both overloads of `record`, in order; the first failing call ends the
replay. -/
def replay (q : quantizer) : List record_call → Except Error quantizer
  | [] => .ok q
  | .range connector range :: rest => replay (q.record connector range) rest
  | .samples connector data :: rest =>
    match q.record_span connector data with
    | .error e => .error e
    | .ok q' => replay q' rest

/-- The calls the stored-range invariant is stated for: a range with `min ≤ max`, or a
non-empty sample sequence. -/
def record_call.admissible : record_call → Prop
  | .range _ r => r.min ≤ r.max
  | .samples _ data => data ≠ []

/-- Every stored range has `min ≤ max`. -/
def quantizer.ranges_ordered (q : quantizer) : Prop :=
  ∀ c range, q.quant_ranges_ c = some range → range.min ≤ range.max

/-- Replaying a list of `record` calls, in order, on a quantizer. -/
def record_all (q : quantizer) (l : List (output_connector × value_range)) : quantizer :=
  l.foldl (fun acc p => acc.record p.1 p.2) q

/-! ## The locals of `get_quant_param` -/

/-- The local `r` of `get_quant_param` after line 54. -/
def quant_span (range : value_range) : ℚ :=
  let r := (clamp_zero range).max - (clamp_zero range).min
  if r < 1 / 1000 then 1 / 1000 else r

/-- The local `scale` of `get_quant_param`, for a shift count in range. -/
def quant_scale (range : value_range) (bits : Int) : ℚ :=
  (((2 : Int) ^ bits.toNat - 1 : Int) : ℚ) / quant_span range

/-- The local `bias` of `get_quant_param` before its conversion to `int32_t`. -/
def quant_bias (range : value_range) (bits : Int) : Int :=
  std_round (-(clamp_zero range).min * quant_scale range bits)

/-! ## Binary32 arithmetic -/

/-- Rounding to the nearest integer, ties to the even one (the IEEE 754 default mode). -/
def round_ties_even (x : ℚ) : Int :=
  if x - ⌊x⌋ < 1 / 2 then ⌊x⌋
  else if 1 / 2 < x - ⌊x⌋ then ⌊x⌋ + 1
  else if ⌊x⌋ % 2 = 0 then ⌊x⌋ else ⌊x⌋ + 1

/-- The spacing of a binary floating-point format around `x`: precision `p` bits, least normal
exponent `emin`; below `2^emin` the spacing is that of the subnormals. -/
def ieee_quantum (p : Nat) (emin : Int) (x : ℚ) : ℚ :=
  2 ^ (max (Int.log 2 |x|) emin - ((p : Int) - 1))

/-- The multiple of the spacing nearest to `x`, ties to even. -/
def ieee_nearest (p : Nat) (emin : Int) (x : ℚ) : ℚ :=
  round_ties_even (x / ieee_quantum p emin x) * ieee_quantum p emin x

/-- Rounding of a real to the format with greatest exponent `emax`; `none` is an overflow to the
infinity of the sign of `x`. -/
def ieee_round (p : Nat) (emin emax : Int) (x : ℚ) : Option ℚ :=
  if |ieee_nearest p emin x| < 2 ^ (emax + 1) then some (ieee_nearest p emin x) else none

/-- Rounding to `float` (IEEE 754 binary32). -/
def binary32_round (x : ℚ) : Option ℚ := ieee_round 24 (-126) 127 x

/-- Rounding to `double` (IEEE 754 binary64). -/
def binary64_round (x : ℚ) : Option ℚ := ieee_round 53 (-1022) 1023 x

/-- The literal `0.001f`: the float nearest to `1/1000`. -/
def float_0_001 : ℚ := 8589935 / 2 ^ 33

/-- The call `std::pow(2, k)` on an `int` exponent: the double `2^k`, zero on underflow, `none`
for `+inf`. -/
def std_pow2 (k : Int) : Option ℚ := binary64_round (2 ^ k)

/-- The method `quantizer::get_quant_param(range, bits)` with every float operation rounded to
binary32; a float that is `none` is `+inf`. -/
def quantizer.get_quant_param_binary32 (range : value_range) (bits : Int) :
    Except Error quant_param_t :=
  let range := clamp_zero range
  let r : Option ℚ := binary32_round (range.max - range.min)
  let r : Option ℚ :=
    match r with
    | some x => if x < float_0_001 then some float_0_001 else some x
    | none => none
  match shl_one bits with
  | none => .error .UndefinedBehaviour
  | some p =>
    match binary32_round ((p - 1 : Int) : ℚ) with
    | none => .error .UndefinedBehaviour
    | some n =>
      let scale : Option ℚ :=
        match r with
        | some x => binary32_round (n / x)
        | none => some 0
      match scale with
      | none => .error .UndefinedBehaviour
      | some scale =>
        match binary32_round (-range.min * scale) with
        | none => .error .UndefinedBehaviour
        | some product =>
          let bias := std_round product
          if bias ≥ 0 then
            match to_int32 bias with
            | none => .error .UndefinedBehaviour
            | some b => .ok ⟨b, scale⟩
          else .error .InvalidQuantizationState

/-- The float `mul * std::pow(2, k)` of `get_fixed_mul`: the product is formed in double and
stored to the float `mul`; `none` is an infinity. -/
def float_mul_pow2 (mul : ℚ) (k : Int) : Option ℚ :=
  match std_pow2 k with
  | none => none
  | some p =>
    match binary64_round (mul * p) with
    | none => none
    | some d => binary32_round d

/-- Lines 71 to 93 of `get_fixed_mul` with the float `mul` stored in binary32. -/
def get_fixed_mul_pair_binary32 (value : ℚ) (max_bits : Int) (max_shift : Nat)
    (is_signed : Bool) : Option ℚ × Int :=
  let bits := fixed_mul_bits max_bits is_signed
  if |value| > 1 then
    let mul := (frexp value).1
    let mul_shift := (frexp value).2
    let shift := std_min (max_shift : Int) (bits - mul_shift)
    (float_mul_pow2 mul (shift + mul_shift), shift)
  else if value = 0 then
    (some 0, 0)
  else
    let mul := (frexp value).1
    let mul_shift := (frexp value).2
    let shift := std_min ((max_shift : Int) + mul_shift) bits
    (float_mul_pow2 mul shift, shift - mul_shift)

/-- The comparison `std::abs(mul) < std::pow(2, bits)` in double. -/
def mul_below_pow2 (mul : Option ℚ) (bits : Int) : Bool :=
  match mul, std_pow2 bits with
  | some m, some p => decide (|m| < p)
  | some _, none => true
  | none, _ => false

/-- The comparison `std::abs(value - mul * std::pow(2, -shift)) <= epsilon` in double. -/
def reconstructs (value mul : ℚ) (shift : Int) : Bool :=
  match std_pow2 (-shift) with
  | none => false
  | some p =>
    match binary64_round (mul * p) with
    | none => false
    | some product =>
      match binary64_round (value - product) with
      | none => false
      | some difference => decide (|difference| ≤ float_epsilon)

/-- The method `quantizer::get_fixed_mul(value, max_bits, max_shift, is_signed)` with the float
`mul` stored in binary32 and the assertions evaluated in double. -/
def quantizer.get_fixed_mul_binary32 (value : ℚ) (max_bits : Int) (max_shift : Nat)
    (is_signed : Bool) : Except Error fixed_mul :=
  if ¬(is_signed = false ∨ value ≥ 0) then .error .InvalidSignedValue
  else
    let bits := fixed_mul_bits max_bits is_signed
    let mul := (get_fixed_mul_pair_binary32 value max_bits max_shift is_signed).1
    let shift := (get_fixed_mul_pair_binary32 value max_bits max_shift is_signed).2
    if ¬(mul_below_pow2 mul bits = true) then .error .MultiplierOutOfRange
    else if ¬(shift ≥ 0 ∧ shift ≤ max_shift) then .error .ShiftOutOfRange
    else
      match mul with
      | none => .error .MultiplierOutOfRange
      | some m =>
        if ¬(reconstructs value m shift = true) then .error .PrecisionLost
        else .ok ⟨m, int8_cast shift⟩

/-- A finite binary32 value: an integer of less than 24 bits scaled by a power of two no smaller
than the least subnormal, of magnitude below `2^128`. -/
def is_binary32 (x : ℚ) : Prop :=
  ∃ n k : Int, x = n * 2 ^ k ∧ |n| < 2 ^ 24 ∧ -149 ≤ k ∧ |x| < 2 ^ 128

/-! ## Reference definitions, in the words of the specification -/

theorem std_min_eq_min {α : Type} [LinearOrder α] (a b : α) : std_min a b = min a b := by
  unfold std_min
  split_ifs with h
  · exact (min_eq_right h.le).symm
  · exact (min_eq_left (not_lt.mp h)).symm

theorem std_max_eq_max {α : Type} [LinearOrder α] (a b : α) : std_max a b = max a b := by
  unfold std_max
  split_ifs with h
  · exact (max_eq_right h.le).symm
  · exact (max_eq_left (not_lt.mp h)).symm

theorem combine_eq (lhs rhs : value_range) :
    combine lhs rhs = ⟨min lhs.min rhs.min, max lhs.max rhs.max⟩ := by
  simp [combine, std_min_eq_min, std_max_eq_max]

theorem combine_comm (a b : value_range) : combine a b = combine b a := by
  simp [combine_eq, min_comm, max_comm]

theorem combine_right_comm (a b c : value_range) :
    combine (combine a b) c = combine (combine a c) b := by
  simp [combine_eq, min_assoc, max_assoc, min_comm b.min, max_comm b.max]

theorem quantizer.ext_ranges {p q : quantizer} (h : ∀ c, p.quant_ranges_ c = q.quant_ranges_ c) :
    p = q := by
  cases p; cases q
  congr
  exact funext h

/-- What a lookup sees after one `record`. -/
theorem record_lookup (q : quantizer) (c : output_connector) (range : value_range)
    (k : output_connector) :
    (q.record c range).quant_ranges_ k =
      if k = c then
        some (match q.quant_ranges_ c with
          | none => range
          | some old => combine old range)
      else q.quant_ranges_ k := by
  unfold quantizer.record
  cases hq : q.quant_ranges_ c <;> by_cases hk : k = c <;> simp [Function.update, hk]

theorem record_record_comm (q : quantizer) (c₁ c₂ : output_connector) (r₁ r₂ : value_range) :
    (q.record c₁ r₁).record c₂ r₂ = (q.record c₂ r₂).record c₁ r₁ := by
  apply quantizer.ext_ranges
  intro k
  by_cases h12 : c₁ = c₂
  · subst h12
    by_cases hk : k = c₁
    · subst hk
      cases hq : q.quant_ranges_ k <;>
        simp [record_lookup, hq, combine_comm r₁ r₂, combine_right_comm]
    · simp [record_lookup, hk]
  · have h21 : c₂ ≠ c₁ := fun h => h12 h.symm
    by_cases hk1 : k = c₁
    · subst hk1
      simp [record_lookup, h12, h21]
    · by_cases hk2 : k = c₂
      · subst hk2
        simp [record_lookup, h12, h21]
      · simp [record_lookup, hk1, hk2]

/-! ## Range tracking -/

/-- C1: `record` with a range inserts the range when the key is absent, replaces the stored
range by the union `{min(old.min, range.min), max(old.max, range.max)}` when it is present, and
touches no other key; recording `{-1, 3}` then `{-2, 1}` on one key of an empty quantizer leaves
`{-2, 3}`. -/
theorem record_range_contract (q : quantizer) (c : output_connector) (range : value_range) :
    (q.quant_ranges_ c = none → (q.record c range).quant_ranges_ c = some range) ∧
    (∀ old, q.quant_ranges_ c = some old →
      (q.record c range).quant_ranges_ c =
        some ⟨min old.min range.min, max old.max range.max⟩) ∧
    (∀ k, k ≠ c → (q.record c range).quant_ranges_ k = q.quant_ranges_ k) ∧
    ((quantizer.empty.record c ⟨-1, 3⟩).record c ⟨-2, 1⟩).quant_ranges_ c = some ⟨-2, 3⟩ := by
  refine ⟨fun h => ?_, fun old h => ?_, fun k hk => ?_, ?_⟩
  · simp [record_lookup, h]
  · simp [record_lookup, h, combine_eq]
  · simp [record_lookup, hk]
  · simp [record_lookup, quantizer.empty, combine_eq]

/-- Witness for C1: key 7 is absent from the empty quantizer and holds `{-1, 3}` after one
`record`; it is then present, and a second `record` of `{-2, 1}` stores the union. -/
theorem record_range_contract_witness :
    quantizer.empty.quant_ranges_ 7 = none ∧
    (quantizer.empty.record 7 ⟨-1, 3⟩).quant_ranges_ 7 = some ⟨-1, 3⟩ ∧
    ((quantizer.empty.record 7 ⟨-1, 3⟩).record 7 ⟨-2, 1⟩).quant_ranges_ 7 =
      some ⟨min (-1) (-2), max 3 1⟩ :=
  have h₁ : (quantizer.empty.record 7 ⟨-1, 3⟩).quant_ranges_ 7 = some ⟨-1, 3⟩ :=
    (record_range_contract quantizer.empty 7 ⟨-1, 3⟩).1 rfl
  ⟨rfl, h₁, (record_range_contract (quantizer.empty.record 7 ⟨-1, 3⟩) 7 ⟨-2, 1⟩).2.1 ⟨-1, 3⟩ h₁⟩

/-- C2: the quantizer reached by replaying a list of recordings does not depend on the order of
the list: any permutation gives the same map (same keys, same range per key); in particular two
recordings on one key commute. -/
theorem record_order_independent (q : quantizer) :
    (∀ l₁ l₂ : List (output_connector × value_range), l₁.Perm l₂ →
      record_all q l₁ = record_all q l₂) ∧
    (∀ (c : output_connector) (a b : value_range),
      (q.record c a).record c b = (q.record c b).record c a) := by
  refine ⟨fun l₁ l₂ h => ?_, fun c a b => record_record_comm q c c a b⟩
  unfold record_all
  exact h.foldl_eq' (fun x _ y _ acc => record_record_comm acc x.1 y.1 x.2 y.2) q

/-- Witness for C2: three recordings on two keys, replayed in two different orders. -/
theorem record_order_independent_witness :
    record_all quantizer.empty [(1, ⟨-1, 3⟩), (2, ⟨0, 5⟩), (1, ⟨-2, 1⟩)] =
      record_all quantizer.empty [(1, ⟨-2, 1⟩), (1, ⟨-1, 3⟩), (2, ⟨0, 5⟩)] :=
  (record_order_independent quantizer.empty).1 _ _
    ((List.Perm.swap _ _ _).trans ((List.Perm.swap _ _ _).cons _)).symm

/-! ## Rounding -/

theorem std_round_neg (x : ℚ) : std_round (-x) = -std_round x := by
  rcases lt_trichotomy x 0 with h | h | h
  · have h' : (0 : ℚ) ≤ -x := by linarith
    rw [std_round, if_pos h', std_round, if_neg (not_le.mpr h), ← Int.floor_neg]
    congr 1
    ring
  · subst h
    have h₀ : ⌊(2 : ℚ)⁻¹⌋ = 0 := by
      rw [Int.floor_eq_iff]
      norm_num
    simp [std_round, h₀]
  · have h' : ¬ (0 : ℚ) ≤ -x := by linarith
    rw [std_round, if_neg h', std_round, if_pos h.le, ← Int.ceil_neg]
    congr 1
    ring

theorem std_round_nonneg {x : ℚ} (h : 0 ≤ x) : 0 ≤ std_round x := by
  rw [std_round, if_pos h]
  exact Int.floor_nonneg.mpr (by linarith)

theorem std_round_nonpos {x : ℚ} (h : x ≤ 0) : std_round x ≤ 0 := by
  have := std_round_nonneg (neg_nonneg.mpr h)
  rw [std_round_neg] at this
  linarith

theorem std_round_mono {x y : ℚ} (h : x ≤ y) : std_round x ≤ std_round y := by
  by_cases hx : 0 ≤ x
  · have hy : 0 ≤ y := hx.trans h
    rw [std_round, if_pos hx, std_round, if_pos hy]
    exact Int.floor_mono (by linarith)
  · by_cases hy : 0 ≤ y
    · exact (std_round_nonpos (not_le.mp hx).le).trans (std_round_nonneg hy)
    · rw [std_round, if_neg hx, std_round, if_neg hy]
      exact Int.ceil_mono (by linarith)

theorem std_round_le_add_half (x : ℚ) : (std_round x : ℚ) ≤ x + 1 / 2 := by
  by_cases hx : 0 ≤ x
  · rw [std_round, if_pos hx]
    exact Int.floor_le _
  · rw [std_round, if_neg hx]
    have := Int.ceil_lt_add_one (x - 1 / 2)
    linarith

/-- Rounding a value that is at most the integer `n` gives at most `n`. -/
theorem std_round_le_of_le {x : ℚ} {n : Int} (h : x ≤ n) : std_round x ≤ n := by
  have h₁ := std_round_le_add_half x
  have h₂ : (std_round x : ℚ) < (n : ℚ) + 1 := by linarith
  have h₃ : std_round x < n + 1 := by exact_mod_cast h₂
  omega

theorem clamp_zero_min (range : value_range) :
    (clamp_zero range).min = if range.min > 0 then 0 else range.min := by
  unfold clamp_zero
  by_cases h₁ : range.max < 0 <;> by_cases h₂ : range.min > 0 <;> simp [h₁, h₂]

theorem clamp_zero_max (range : value_range) :
    (clamp_zero range).max = if range.max < 0 then 0 else range.max := by
  unfold clamp_zero
  by_cases h₁ : range.max < 0 <;> by_cases h₂ : range.min > 0 <;> simp [h₁, h₂]

theorem clamp_zero_min_nonpos (range : value_range) : (clamp_zero range).min ≤ 0 := by
  rw [clamp_zero_min]
  split_ifs with h
  · exact le_rfl
  · exact not_lt.mp h

theorem clamp_zero_max_nonneg (range : value_range) : 0 ≤ (clamp_zero range).max := by
  rw [clamp_zero_max]
  split_ifs with h
  · exact le_rfl
  · exact not_lt.mp h

theorem quant_span_eq_max (range : value_range) :
    quant_span range = max ((clamp_zero range).max - (clamp_zero range).min) (1 / 1000) := by
  unfold quant_span
  by_cases h : (clamp_zero range).max - (clamp_zero range).min < 1 / 1000
  · simp only [h, if_true]
    exact (max_eq_right h.le).symm
  · simp only [h, if_false]
    exact (max_eq_left (not_lt.mp h)).symm

theorem quant_span_pos (range : value_range) : 0 < quant_span range := by
  rw [quant_span_eq_max]
  exact lt_of_lt_of_le (by norm_num) (le_max_right _ _)

theorem width_le_quant_span (range : value_range) :
    (clamp_zero range).max - (clamp_zero range).min ≤ quant_span range := by
  rw [quant_span_eq_max]
  exact le_max_left _ _

theorem two_pow_sub_one_nonneg (n : Nat) : (0 : ℚ) ≤ (((2 : Int) ^ n - 1 : Int) : ℚ) := by
  have h : (0 : Int) < 2 ^ n := by positivity
  have h' : (0 : Int) ≤ 2 ^ n - 1 := by omega
  exact_mod_cast h'

theorem quant_scale_nonneg (range : value_range) (bits : Int) : 0 ≤ quant_scale range bits :=
  div_nonneg (two_pow_sub_one_nonneg _) (quant_span_pos range).le

theorem quant_scale_mul_span (range : value_range) (bits : Int) :
    quant_span range * quant_scale range bits = (((2 : Int) ^ bits.toNat - 1 : Int) : ℚ) := by
  unfold quant_scale
  field_simp [(quant_span_pos range).ne']

theorem quant_bias_nonneg (range : value_range) (bits : Int) : 0 ≤ quant_bias range bits :=
  std_round_nonneg
    (mul_nonneg (neg_nonneg.mpr (clamp_zero_min_nonpos range)) (quant_scale_nonneg range bits))

theorem quant_bias_le (range : value_range) (bits : Int) :
    quant_bias range bits ≤ 2 ^ bits.toNat - 1 := by
  apply std_round_le_of_le
  have h₁ : -(clamp_zero range).min ≤ quant_span range := by
    have := width_le_quant_span range
    have := clamp_zero_max_nonneg range
    linarith
  calc -(clamp_zero range).min * quant_scale range bits
      ≤ quant_span range * quant_scale range bits :=
        mul_le_mul_of_nonneg_right h₁ (quant_scale_nonneg range bits)
    _ = (((2 : Int) ^ bits.toNat - 1 : Int) : ℚ) := quant_scale_mul_span range bits

theorem quant_bias_fits (range : value_range) (bits : Int) (h : bits ≤ 31) :
    quant_bias range bits ≤ 2 ^ 31 - 1 := by
  have h₁ := quant_bias_le range bits
  have h₂ : (2 : Int) ^ bits.toNat ≤ 2 ^ 31 :=
    pow_le_pow_right₀ (by norm_num) (by omega)
  omega

/-- The result of `get_quant_param` in terms of its locals, for a shift count in range. -/
theorem get_quant_param_eq (range : value_range) (bits : Int) (h₀ : 0 ≤ bits) (h₁ : bits ≤ 62) :
    quantizer.get_quant_param range bits =
      if quant_bias range bits ≤ 2 ^ 31 - 1 then
        .ok ⟨quant_bias range bits, quant_scale range bits⟩
      else .error .UndefinedBehaviour := by
  have hb := quant_bias_nonneg range bits
  have hs : shl_one bits = some (2 ^ bits.toNat) := by simp [shl_one, h₀, h₁]
  have key : quantizer.get_quant_param range bits =
      if quant_bias range bits ≥ 0 then
        match to_int32 (quant_bias range bits) with
        | none => .error .UndefinedBehaviour
        | some b => .ok ⟨b, quant_scale range bits⟩
      else .error .InvalidQuantizationState := by
    unfold quantizer.get_quant_param
    rw [hs]
    rfl
  rw [key, if_pos hb]
  unfold to_int32
  norm_num
  by_cases hfit : quant_bias range bits ≤ 2147483647
  · have hlow : -2147483648 ≤ quant_bias range bits := by omega
    simp [hfit, hlow]
  · simp [hfit]

/-- On an out-of-range shift count `get_quant_param` has no defined result. -/
theorem get_quant_param_undefined (range : value_range) (bits : Int) (h : ¬(0 ≤ bits ∧ bits ≤ 62)) :
    quantizer.get_quant_param range bits = .error .UndefinedBehaviour := by
  unfold quantizer.get_quant_param shl_one
  simp [h]

/-- Evaluating `std_round` at a non-negative argument: the integer `n` with
`n ≤ x + 1/2 < n + 1`. -/
theorem std_round_eq_of_nonneg {x : ℚ} {n : Int} (h₀ : 0 ≤ x) (h₁ : (n : ℚ) ≤ x + 1 / 2)
    (h₂ : x + 1 / 2 < n + 1) : std_round x = n := by
  rw [std_round, if_pos h₀, Int.floor_eq_iff]
  exact ⟨h₁, h₂⟩

theorem std_round_half_255 : std_round (255 / 2) = 128 :=
  std_round_eq_of_nonneg (by norm_num) (by norm_num) (by norm_num)

theorem get_quant_param_unit_range :
    quantizer.get_quant_param ⟨-1, 1⟩ 8 = .ok ⟨128, 255 / 2⟩ := by
  have hc : clamp_zero ⟨-1, 1⟩ = ⟨-1, 1⟩ := by
    norm_num [clamp_zero]
  have hs : quant_span ⟨-1, 1⟩ = 2 := by
    simp only [quant_span, hc]
    norm_num
  have hscale : quant_scale ⟨-1, 1⟩ 8 = 255 / 2 := by
    have h8 : (8 : Int).toNat = 8 := rfl
    simp only [quant_scale, hs, h8]
    norm_num
  have hbias : quant_bias ⟨-1, 1⟩ 8 = 128 := by
    simp only [quant_bias, hscale, hc]
    norm_num
    exact std_round_half_255
  rw [get_quant_param_eq _ _ (by norm_num) (by norm_num), hbias, hscale]
  norm_num

/-! ## `frexp` -/

theorem frexp_zero : frexp 0 = (0, 0) := by
  simp [frexp]

theorem frexp_of_ne_zero {v : ℚ} (hv : v ≠ 0) :
    frexp v = (v / 2 ^ (Int.log 2 |v| + 1), Int.log 2 |v| + 1) := by
  simp [frexp, hv]

theorem two_zpow_pos (k : Int) : (0 : ℚ) < 2 ^ k :=
  zpow_pos (by norm_num) k

/-- The exponent of `frexp` brackets the magnitude: `2^(e-1) ≤ |v| < 2^e`. -/
theorem frexp_exp_bounds {v : ℚ} (hv : v ≠ 0) :
    (2 : ℚ) ^ ((frexp v).2 - 1) ≤ |v| ∧ |v| < (2 : ℚ) ^ (frexp v).2 := by
  have habs : 0 < |v| := abs_pos.mpr hv
  rw [frexp_of_ne_zero hv]
  constructor
  · have h := Int.zpow_log_le_self (b := 2) (by norm_num) habs
    simpa using h
  · have h := Int.lt_zpow_succ_log_self (b := 2) (by norm_num) |v|
    simpa using h

/-- The decomposition of `frexp` is exact: `m * 2^e = v`. -/
theorem frexp_mul_pow (v : ℚ) : (frexp v).1 * 2 ^ (frexp v).2 = v := by
  by_cases hv : v = 0
  · subst hv
    simp [frexp_zero]
  · rw [frexp_of_ne_zero hv]
    exact div_mul_cancel₀ v (two_zpow_pos _).ne'

/-- The mantissa of `frexp` is normalised: `1/2 ≤ |m| < 1` for a non-zero argument. -/
theorem frexp_mantissa_bounds {v : ℚ} (hv : v ≠ 0) :
    1 / 2 ≤ |(frexp v).1| ∧ |(frexp v).1| < 1 := by
  obtain ⟨hlo, hhi⟩ := frexp_exp_bounds hv
  have hpos := two_zpow_pos (frexp v).2
  have hm : |(frexp v).1| * 2 ^ (frexp v).2 = |v| := by
    rw [← abs_of_pos hpos, ← abs_mul, frexp_mul_pow]
  have hsplit : (2 : ℚ) ^ ((frexp v).2 - 1) = 2 ^ (frexp v).2 / 2 := by
    rw [zpow_sub_one₀ (by norm_num)]
    rfl
  rw [hsplit] at hlo
  constructor
  · by_contra hcon
    push_neg at hcon
    have := mul_lt_mul_of_pos_right hcon hpos
    linarith
  · by_contra hcon
    push_neg at hcon
    have := mul_le_mul_of_nonneg_right hcon hpos.le
    linarith

/-- The contract of `frexp` determines its result. -/
theorem frexp_unique {v m : ℚ} {e : Int} (h : v = m * 2 ^ e) (h₁ : 1 / 2 ≤ |m|) (h₂ : |m| < 1) :
    frexp v = (m, e) := by
  have hpos := two_zpow_pos e
  have hm : m ≠ 0 := by
    intro h0
    rw [h0, abs_zero] at h₁
    norm_num at h₁
  have hv : v ≠ 0 := by
    rw [h]
    exact mul_ne_zero hm hpos.ne'
  have habs : |v| = |m| * 2 ^ e := by
    rw [h, abs_mul, abs_of_pos hpos]
  have hlog : Int.log 2 |v| = e - 1 := by
    apply le_antisymm
    · have hlt : |v| < ((2 : ℕ) : ℚ) ^ e := by
        rw [habs]
        push_cast
        calc |m| * 2 ^ e < 1 * 2 ^ e := mul_lt_mul_of_pos_right h₂ hpos
          _ = 2 ^ e := one_mul _
      have := (Int.lt_zpow_iff_log_lt (b := 2) (by norm_num) (abs_pos.mpr hv)).mp hlt
      omega
    · apply (Int.zpow_le_iff_le_log (b := 2) (by norm_num) (abs_pos.mpr hv)).mp
      rw [habs]
      push_cast
      rw [zpow_sub_one₀ (by norm_num)]
      calc (2 : ℚ) ^ e * 2⁻¹ = 1 / 2 * 2 ^ e := by ring
        _ ≤ |m| * 2 ^ e := mul_le_mul_of_nonneg_right h₁ hpos.le
  rw [frexp_of_ne_zero hv, hlog]
  have he : e - 1 + 1 = e := by ring
  rw [he, h, mul_div_assoc, div_self hpos.ne', mul_one]

/-! ## The pair computed by `get_fixed_mul` -/

theorem get_fixed_mul_pair_zero (max_bits : Int) (max_shift : Nat) (is_signed : Bool) :
    get_fixed_mul_pair 0 max_bits max_shift is_signed = (0, 0) := by
  simp [get_fixed_mul_pair]

/-- Both non-zero branches compute the shift `min(max_shift, bits - e)`. -/
theorem get_fixed_mul_pair_shift {value : ℚ} (hv : value ≠ 0) (max_bits : Int) (max_shift : Nat)
    (is_signed : Bool) :
    (get_fixed_mul_pair value max_bits max_shift is_signed).2 =
      min (max_shift : Int) (fixed_mul_bits max_bits is_signed - (frexp value).2) := by
  unfold get_fixed_mul_pair
  by_cases h : |value| > 1
  · simp only [h, if_true, std_min_eq_min]
  · simp only [h, hv, if_false, std_min_eq_min]
    omega

/-- In every branch the multiplier is the value scaled by `2^shift`. -/
theorem get_fixed_mul_pair_mul (value : ℚ) (max_bits : Int) (max_shift : Nat) (is_signed : Bool) :
    (get_fixed_mul_pair value max_bits max_shift is_signed).1 =
      value * 2 ^ (get_fixed_mul_pair value max_bits max_shift is_signed).2 := by
  have h2 : (2 : ℚ) ≠ 0 := by norm_num
  by_cases hv : value = 0
  · subst hv
    simp [get_fixed_mul_pair_zero]
  · obtain ⟨m, e, hfr, hme⟩ : ∃ m e, frexp value = (m, e) ∧ m * 2 ^ e = value :=
      ⟨_, _, rfl, frexp_mul_pow value⟩
    unfold get_fixed_mul_pair
    by_cases h : |value| > 1
    · simp only [h, if_true, hfr]
      rw [zpow_add₀ h2, ← hme]
      ring
    · simp only [h, hv, if_false, hfr]
      rw [← hme, mul_assoc, ← zpow_add₀ h2]
      congr 2
      ring

/-- The third assertion holds with error zero. -/
theorem get_fixed_mul_pair_exact (value : ℚ) (max_bits : Int) (max_shift : Nat)
    (is_signed : Bool) :
    (get_fixed_mul_pair value max_bits max_shift is_signed).1 *
      2 ^ (-(get_fixed_mul_pair value max_bits max_shift is_signed).2) = value := by
  rw [get_fixed_mul_pair_mul, mul_assoc, ← zpow_add₀ (by norm_num)]
  simp

theorem get_fixed_mul_pair_shift_le (value : ℚ) (max_bits : Int) (max_shift : Nat)
    (is_signed : Bool) :
    (get_fixed_mul_pair value max_bits max_shift is_signed).2 ≤ max_shift := by
  by_cases hv : value = 0
  · subst hv
    rw [get_fixed_mul_pair_zero]
    exact Int.ofNat_nonneg _
  · rw [get_fixed_mul_pair_shift hv]
    exact min_le_left _ _

/-- The frexp exponent is at most `bits` exactly when the magnitude is below `2^bits`. -/
theorem frexp_exp_le_iff {value : ℚ} (hv : value ≠ 0) (bits : Int) :
    (frexp value).2 ≤ bits ↔ |value| < 2 ^ bits := by
  obtain ⟨hlo, hhi⟩ := frexp_exp_bounds hv
  constructor
  · intro h
    exact lt_of_lt_of_le hhi (zpow_le_zpow_right₀ (by norm_num) h)
  · intro h
    have hlt : (2 : ℚ) ^ ((frexp value).2 - 1) < 2 ^ bits := lt_of_le_of_lt hlo h
    have := (zpow_lt_zpow_iff_right₀ (by norm_num : (1 : ℚ) < 2)).mp hlt
    omega

/-- The first assertion, `|mul| < 2^bits`, holds for every input. -/
theorem get_fixed_mul_pair_mul_lt (value : ℚ) (max_bits : Int) (max_shift : Nat)
    (is_signed : Bool) :
    |(get_fixed_mul_pair value max_bits max_shift is_signed).1| <
      2 ^ fixed_mul_bits max_bits is_signed := by
  by_cases hv : value = 0
  · subst hv
    rw [get_fixed_mul_pair_zero]
    simpa using two_zpow_pos _
  · obtain ⟨_, hhi⟩ := frexp_exp_bounds hv
    have hs := get_fixed_mul_pair_shift hv max_bits max_shift is_signed
    have hle : (frexp value).2 + (get_fixed_mul_pair value max_bits max_shift is_signed).2 ≤
        fixed_mul_bits max_bits is_signed := by
      have := min_le_right (max_shift : Int) (fixed_mul_bits max_bits is_signed - (frexp value).2)
      omega
    have hpos := two_zpow_pos (get_fixed_mul_pair value max_bits max_shift is_signed).2
    rw [get_fixed_mul_pair_mul, abs_mul, abs_of_pos hpos]
    calc |value| * 2 ^ (get_fixed_mul_pair value max_bits max_shift is_signed).2
        < 2 ^ (frexp value).2 * 2 ^ (get_fixed_mul_pair value max_bits max_shift is_signed).2 :=
          mul_lt_mul_of_pos_right hhi hpos
      _ = 2 ^ ((frexp value).2 + (get_fixed_mul_pair value max_bits max_shift is_signed).2) :=
          (zpow_add₀ (by norm_num) _ _).symm
      _ ≤ 2 ^ fixed_mul_bits max_bits is_signed := zpow_le_zpow_right₀ (by norm_num) hle

/-- The shift is non-negative exactly on the representable domain. -/
theorem get_fixed_mul_pair_shift_nonneg_iff (value : ℚ) (max_bits : Int) (max_shift : Nat)
    (is_signed : Bool) :
    0 ≤ (get_fixed_mul_pair value max_bits max_shift is_signed).2 ↔
      |value| < 2 ^ fixed_mul_bits max_bits is_signed := by
  by_cases hv : value = 0
  · subst hv
    rw [get_fixed_mul_pair_zero]
    simpa using two_zpow_pos _
  · rw [get_fixed_mul_pair_shift hv, ← frexp_exp_le_iff hv]
    have := Int.ofNat_nonneg max_shift
    constructor
    · intro h
      have := le_min_iff.mp h
      omega
    · intro h
      exact le_min (by omega) (by omega)

theorem get_fixed_mul_pair_error_le (value : ℚ) (max_bits : Int) (max_shift : Nat)
    (is_signed : Bool) :
    |value - (get_fixed_mul_pair value max_bits max_shift is_signed).1 *
      2 ^ (-(get_fixed_mul_pair value max_bits max_shift is_signed).2)| ≤ float_epsilon := by
  rw [get_fixed_mul_pair_exact, sub_self, abs_zero]
  norm_num [float_epsilon]

theorem int8_cast_of_small {x : Int} (h₀ : 0 ≤ x) (h₁ : x ≤ 127) : int8_cast x = x := by
  unfold int8_cast
  omega

/-- The result of `get_fixed_mul` once the sign precondition holds: the computed pair on the
representable domain, a failure of the shift assertion outside it. -/
theorem get_fixed_mul_eq (value : ℚ) (max_bits : Int) (max_shift : Nat) (is_signed : Bool)
    (hsign : is_signed = true → 0 ≤ value) :
    quantizer.get_fixed_mul value max_bits max_shift is_signed =
      if |value| < 2 ^ fixed_mul_bits max_bits is_signed then
        .ok ⟨(get_fixed_mul_pair value max_bits max_shift is_signed).1,
          int8_cast (get_fixed_mul_pair value max_bits max_shift is_signed).2⟩
      else .error .ShiftOutOfRange := by
  have hpre : is_signed = false ∨ value ≥ 0 := by
    cases is_signed
    · exact Or.inl rfl
    · exact Or.inr (hsign rfl)
  have hmul := get_fixed_mul_pair_mul_lt value max_bits max_shift is_signed
  have hle := get_fixed_mul_pair_shift_le value max_bits max_shift is_signed
  have hnn := get_fixed_mul_pair_shift_nonneg_iff value max_bits max_shift is_signed
  have hex := get_fixed_mul_pair_error_le value max_bits max_shift is_signed
  unfold quantizer.get_fixed_mul
  by_cases hdom : |value| < 2 ^ fixed_mul_bits max_bits is_signed
  · have h₀ := hnn.mpr hdom
    simp only [hpre, hmul, hle, hex, h₀, hdom, ge_iff_le, and_self, not_true_eq_false, if_false,
      if_true]
  · have h₀ : ¬(0 ≤ (get_fixed_mul_pair value max_bits max_shift is_signed).2) :=
      fun h => hdom (hnn.mp h)
    simp only [hpre, hmul, h₀, hdom, ge_iff_le, false_and, not_true_eq_false, not_false_eq_true,
      if_false, if_true]

theorem get_fixed_mul_sign_error (value : ℚ) (max_bits : Int) (max_shift : Nat)
    (hneg : value < 0) :
    quantizer.get_fixed_mul value max_bits max_shift true = .error .InvalidSignedValue := by
  unfold quantizer.get_fixed_mul
  have h : ¬(true = false ∨ value ≥ 0) := by
    simp [hneg]
  rw [if_pos h]

theorem record_lookup_eq_none (q : quantizer) (c : output_connector) (range : value_range)
    (k : output_connector) :
    (q.record c range).quant_ranges_ k = none ↔ q.quant_ranges_ k = none ∧ c ≠ k := by
  rw [record_lookup]
  by_cases h : k = c
  · simp [h]
  · have h' : c ≠ k := fun e => h e.symm
    simp [h, h']

/-- A key is absent after replaying recordings exactly when it was absent before and none of
the recordings names it. -/
theorem record_all_lookup_eq_none (l : List (output_connector × value_range)) (q : quantizer)
    (k : output_connector) :
    (record_all q l).quant_ranges_ k = none ↔
      q.quant_ranges_ k = none ∧ ∀ p ∈ l, p.1 ≠ k := by
  induction l generalizing q with
  | nil => simp [record_all]
  | cons p l ih =>
    have hstep : record_all q (p :: l) = record_all (q.record p.1 p.2) l := rfl
    rw [hstep, ih, record_lookup_eq_none]
    simp only [List.mem_cons, forall_eq_or_imp]
    tauto

/-! ## Fixed-point multipliers -/

/-- C9: `get_fixed_mul` fails with `InvalidSignedValue` exactly when `is_signed` is set and
`value < 0`: an unsigned call never fails this check, a signed call with `value ≥ 0` passes it,
and `value = -1` with `is_signed` fails it for every `max_bits` and `max_shift`. -/
theorem invalid_signed_value_iff :
    (∀ (value : ℚ) (max_bits : Int) (max_shift : Nat) (is_signed : Bool),
      quantizer.get_fixed_mul value max_bits max_shift is_signed = .error .InvalidSignedValue ↔
        (is_signed = true ∧ value < 0)) ∧
    (∀ (max_bits : Int) (max_shift : Nat),
      quantizer.get_fixed_mul (-1) max_bits max_shift true = .error .InvalidSignedValue) := by
  refine ⟨fun value max_bits max_shift is_signed => ⟨fun h => ?_, fun h => ?_⟩,
    fun max_bits max_shift => get_fixed_mul_sign_error (-1) max_bits max_shift (by norm_num)⟩
  · by_contra hcon
    have hsign : is_signed = true → 0 ≤ value := by
      intro ht
      by_contra hc
      exact hcon ⟨ht, not_le.mp hc⟩
    rw [get_fixed_mul_eq value max_bits max_shift is_signed hsign] at h
    by_cases hdom : |value| < 2 ^ fixed_mul_bits max_bits is_signed
    · rw [if_pos hdom] at h
      cases h
    · rw [if_neg hdom] at h
      cases h
  · rw [h.1]
    exact get_fixed_mul_sign_error value max_bits max_shift h.2

/-- Witness for C9: the signed call on `value = -1` with 8 bits and `max_shift = 8`. -/
theorem invalid_signed_value_iff_witness :
    quantizer.get_fixed_mul (-1) 8 8 true = .error .InvalidSignedValue :=
  (invalid_signed_value_iff.1 (-1) 8 8 true).mpr ⟨rfl, by norm_num⟩

/-! ## Lookup -/

/-- C10: on a quantizer reached from the empty one by `record` calls, `get` fails with
`UnknownTensor` exactly when no call recorded the key; when one did, `get` returns the range
stored for the key; in both cases the quantizer is unchanged. -/
theorem get_range_contract (l : List (output_connector × value_range)) (c : output_connector) :
    (((record_all quantizer.empty l).get c).1 = .error .UnknownTensor ↔ ∀ p ∈ l, p.1 ≠ c) ∧
    ((∃ p ∈ l, p.1 = c) →
      ∃ r, (record_all quantizer.empty l).quant_ranges_ c = some r ∧
        ((record_all quantizer.empty l).get c).1 = .ok r) ∧
    ((record_all quantizer.empty l).get c).2 = record_all quantizer.empty l := by
  have hnone := record_all_lookup_eq_none l quantizer.empty c
  have hempty : quantizer.empty.quant_ranges_ c = none := rfl
  simp only [hempty, true_and] at hnone
  refine ⟨?_, ?_, ?_⟩
  · rw [← hnone]
    unfold quantizer.get
    cases hq : (record_all quantizer.empty l).quant_ranges_ c <;> simp
  · intro hex
    cases hq : (record_all quantizer.empty l).quant_ranges_ c with
    | none =>
      obtain ⟨p, hp, hpc⟩ := hex
      exact absurd hpc (hnone.mp hq p hp)
    | some r =>
      refine ⟨r, rfl, ?_⟩
      unfold quantizer.get
      rw [hq]
  · unfold quantizer.get
    cases hq : (record_all quantizer.empty l).quant_ranges_ c <;> rfl

/-- Witness for C10: after recordings on keys 1 and 2, key 2 is found. -/
theorem get_range_contract_witness :
    ∃ r, (record_all quantizer.empty [(1, ⟨-1, 3⟩), (2, ⟨0, 5⟩)]).quant_ranges_ 2 = some r ∧
      ((record_all quantizer.empty [(1, ⟨-1, 3⟩), (2, ⟨0, 5⟩)]).get 2).1 = .ok r :=
  (get_range_contract [(1, ⟨-1, 3⟩), (2, ⟨0, 5⟩)] 2).2.1 ⟨(2, ⟨0, 5⟩), by simp, rfl⟩

/-! ## Recording samples -/

/-- The scan keeps a lower and an upper bound that are elements seen so far. -/
theorem minmax_fold_spec (xs : List ℚ) (a b : ℚ) :
    ((xs.foldl minmax_step (a, b)).1 = a ∨ (xs.foldl minmax_step (a, b)).1 ∈ xs) ∧
    ((xs.foldl minmax_step (a, b)).2 = b ∨ (xs.foldl minmax_step (a, b)).2 ∈ xs) ∧
    (xs.foldl minmax_step (a, b)).1 ≤ a ∧ b ≤ (xs.foldl minmax_step (a, b)).2 ∧
    ∀ y ∈ xs, (xs.foldl minmax_step (a, b)).1 ≤ y ∧ y ≤ (xs.foldl minmax_step (a, b)).2 := by
  induction xs generalizing a b with
  | nil => simp
  | cons x xs ih =>
    obtain ⟨h₁, h₂, h₃, h₄, h₅⟩ := ih (minmax_step (a, b) x).1 (minmax_step (a, b) x).2
    have hlo : (minmax_step (a, b) x).1 ≤ a ∧ (minmax_step (a, b) x).1 ≤ x ∧
        ((minmax_step (a, b) x).1 = a ∨ (minmax_step (a, b) x).1 = x) := by
      unfold minmax_step
      by_cases h : x < a
      · simp only [h, if_true]
        exact ⟨h.le, le_rfl, Or.inr trivial⟩
      · simp only [h, if_false]
        exact ⟨le_rfl, not_lt.mp h, Or.inl trivial⟩
    have hhi : b ≤ (minmax_step (a, b) x).2 ∧ x ≤ (minmax_step (a, b) x).2 ∧
        ((minmax_step (a, b) x).2 = b ∨ (minmax_step (a, b) x).2 = x) := by
      unfold minmax_step
      by_cases h : x < b
      · simp only [h, if_true]
        exact ⟨le_rfl, h.le, Or.inl trivial⟩
      · simp only [h, if_false]
        exact ⟨not_lt.mp h, le_rfl, Or.inr trivial⟩
    have hstep : (x :: xs).foldl minmax_step (a, b) =
        xs.foldl minmax_step ((minmax_step (a, b) x).1, (minmax_step (a, b) x).2) := rfl
    rw [hstep]
    refine ⟨?_, ?_, h₃.trans hlo.1, hhi.1.trans h₄, ?_⟩
    · rcases h₁ with h | h
      · rcases hlo.2.2 with h' | h'
        · exact Or.inl (h.trans h')
        · exact Or.inr (by rw [h, h']; exact List.mem_cons_self _ _)
      · exact Or.inr (List.mem_cons_of_mem _ h)
    · rcases h₂ with h | h
      · rcases hhi.2.2 with h' | h'
        · exact Or.inl (h.trans h')
        · exact Or.inr (by rw [h, h']; exact List.mem_cons_self _ _)
      · exact Or.inr (List.mem_cons_of_mem _ h)
    · intro y hy
      rcases List.mem_cons.mp hy with h | h
      · subst h
        exact ⟨h₃.trans hlo.2.1, hhi.2.1.trans h₄⟩
      · exact h₅ y h

/-- On a non-empty sequence `get_range` returns the least and the greatest sample. -/
theorem get_range_spec {data : List ℚ} (hne : data ≠ []) :
    ∃ lo hi, quantizer.get_range data = some ⟨lo, hi⟩ ∧ lo ∈ data ∧ hi ∈ data ∧
      ∀ y ∈ data, lo ≤ y ∧ y ≤ hi := by
  cases data with
  | nil => exact absurd rfl hne
  | cons x xs =>
    obtain ⟨h₁, h₂, h₃, h₄, h₅⟩ := minmax_fold_spec xs x x
    refine ⟨(xs.foldl minmax_step (x, x)).1, (xs.foldl minmax_step (x, x)).2, rfl, ?_, ?_, ?_⟩
    · rcases h₁ with h | h
      · rw [h]
        exact List.mem_cons_self _ _
      · exact List.mem_cons_of_mem _ h
    · rcases h₂ with h | h
      · rw [h]
        exact List.mem_cons_self _ _
      · exact List.mem_cons_of_mem _ h
    · intro y hy
      rcases List.mem_cons.mp hy with h | h
      · subst h
        exact ⟨h₃, h₄⟩
      · exact h₅ y h

theorem record_span_nil (q : quantizer) (c : output_connector) :
    q.record_span c [] = .error .UndefinedBehaviour := rfl

theorem record_span_of_get_range {data : List ℚ} {range : value_range}
    (h : quantizer.get_range data = some range) (q : quantizer) (c : output_connector) :
    q.record_span c data = .ok (q.record c range) := by
  unfold quantizer.record_span
  rw [h]

/-- C11: on a non-empty sample sequence, `record` with a span has the effect of `record` with
the range `{lo, hi}`, where `lo` and `hi` are samples, `lo` is at most every sample and `hi` is
at least every sample. -/
theorem record_samples_contract (q : quantizer) (c : output_connector) (data : List ℚ)
    (hne : data ≠ []) :
    ∃ lo hi, lo ∈ data ∧ hi ∈ data ∧ (∀ y ∈ data, lo ≤ y ∧ y ≤ hi) ∧
      q.record_span c data = .ok (q.record c ⟨lo, hi⟩) := by
  obtain ⟨lo, hi, hr, hlo, hhi, hall⟩ := get_range_spec hne
  exact ⟨lo, hi, hlo, hhi, hall, record_span_of_get_range hr q c⟩

/-- Witness for C11: the samples `3, -1, 2` recorded on key 4 of an empty quantizer. -/
theorem record_samples_contract_witness :
    ∃ lo hi, lo ∈ [(3 : ℚ), -1, 2] ∧ hi ∈ [(3 : ℚ), -1, 2] ∧
      (∀ y ∈ [(3 : ℚ), -1, 2], lo ≤ y ∧ y ≤ hi) ∧
      quantizer.empty.record_span 4 [3, -1, 2] = .ok (quantizer.empty.record 4 ⟨lo, hi⟩) :=
  record_samples_contract quantizer.empty 4 [3, -1, 2] (by simp)

/-- C12, as stated, fails: `record` with an empty span on key 0 of the empty quantizer reads
through the end iterators of `std::minmax_element`; the outcome is undefined behaviour, not
`EmptySampleSet`, and no quantizer is handed back. -/
theorem record_samples_empty_counterexample :
    quantizer.get_range [] = none ∧
    quantizer.empty.record_span 0 [] = .error .UndefinedBehaviour ∧
    quantizer.empty.record_span 0 [] ≠ .error .EmptySampleSet := by
  refine ⟨rfl, rfl, ?_⟩
  rw [record_span_nil]
  simp

/-- C12, amended: `record` with a span never fails with `EmptySampleSet`; a non-empty sample
sequence is a precondition that the code does not check, and under it the call succeeds. -/
theorem record_samples_no_empty_check (q : quantizer) (c : output_connector) (data : List ℚ) :
    q.record_span c data ≠ .error .EmptySampleSet ∧
    (data ≠ [] → ∃ q', q.record_span c data = .ok q') := by
  constructor
  · unfold quantizer.record_span
    cases quantizer.get_range data <;> simp
  · intro hne
    obtain ⟨lo, hi, hr, _⟩ := get_range_spec hne
    exact ⟨_, record_span_of_get_range hr q c⟩

/-- Witness for C12 amended: one sample recorded on key 0. -/
theorem record_samples_no_empty_check_witness :
    ∃ q', quantizer.empty.record_span 0 [5] = .ok q' :=
  (record_samples_no_empty_check quantizer.empty 0 [5]).2 (by simp)

/-! ## Scale monotonicity, zero inclusion, stored ranges -/

/-- What a successful `get_quant_param` returns. -/
theorem get_quant_param_ok {range : value_range} {bits : Int} {p : quant_param_t}
    (h : quantizer.get_quant_param range bits = .ok p) :
    0 ≤ bits ∧ bits ≤ 62 ∧ p = ⟨quant_bias range bits, quant_scale range bits⟩ := by
  by_cases hdom : 0 ≤ bits ∧ bits ≤ 62
  · rw [get_quant_param_eq range bits hdom.1 hdom.2] at h
    by_cases hfit : quant_bias range bits ≤ 2 ^ 31 - 1
    · rw [if_pos hfit] at h
      cases h
      exact ⟨hdom.1, hdom.2, rfl⟩
    · rw [if_neg hfit] at h
      cases h
  · rw [get_quant_param_undefined range bits hdom] at h
    cases h

theorem clamp_zero_idem (range : value_range) : clamp_zero (clamp_zero range) = clamp_zero range := by
  have h₁ : ¬(clamp_zero range).max < 0 := not_lt.mpr (clamp_zero_max_nonneg range)
  have h₂ : ¬(clamp_zero range).min > 0 := not_lt.mpr (clamp_zero_min_nonpos range)
  have h : ∀ r : value_range, ¬r.max < 0 → ¬r.min > 0 → clamp_zero r = r := by
    intro r hmax hmin
    unfold clamp_zero
    simp only [hmax, hmin, if_false]
  exact h _ h₁ h₂

/-- C14: for every input range, also one above zero, below zero or with `min > max`, the
clamped range of `get_quant_param` satisfies `min' ≤ 0 ≤ max'`; clamping is idempotent and the
result of `get_quant_param` is the result on the clamped range, so span, scale and bias are
those of a range that contains zero. -/
theorem zero_inclusion (range : value_range) :
    (clamp_zero range).min ≤ 0 ∧ 0 ≤ (clamp_zero range).max ∧
    clamp_zero (clamp_zero range) = clamp_zero range ∧
    ∀ bits, quantizer.get_quant_param range bits =
      quantizer.get_quant_param (clamp_zero range) bits := by
  refine ⟨clamp_zero_min_nonpos range, clamp_zero_max_nonneg range, clamp_zero_idem range, ?_⟩
  intro bits
  unfold quantizer.get_quant_param
  rw [clamp_zero_idem]

theorem combine_ordered {a b : value_range} (ha : a.min ≤ a.max) :
    (combine a b).min ≤ (combine a b).max := by
  rw [combine_eq]
  exact (min_le_left _ _).trans (ha.trans (le_max_left _ _))

theorem record_ranges_ordered {q : quantizer} (hq : q.ranges_ordered) (c : output_connector)
    {range : value_range} (hr : range.min ≤ range.max) : (q.record c range).ranges_ordered := by
  intro k r hk
  rw [record_lookup] at hk
  by_cases hkc : k = c
  · rw [if_pos hkc] at hk
    cases hold : q.quant_ranges_ c with
    | none =>
      rw [hold] at hk
      cases hk
      exact hr
    | some old =>
      rw [hold] at hk
      cases hk
      exact combine_ordered (hq c old hold)
  · rw [if_neg hkc] at hk
    exact hq k r hk

theorem replay_ranges_ordered (calls : List record_call) (q : quantizer) (hq : q.ranges_ordered)
    (hadm : ∀ call ∈ calls, call.admissible) :
    ∃ q', replay q calls = .ok q' ∧ q'.ranges_ordered := by
  induction calls generalizing q with
  | nil => exact ⟨q, rfl, hq⟩
  | cons call rest ih =>
    have hrest : ∀ call' ∈ rest, call'.admissible :=
      fun call' h => hadm call' (List.mem_cons_of_mem _ h)
    have hcall := hadm call (List.mem_cons_self _ _)
    cases call with
    | range c r =>
      exact ih (q.record c r) (record_ranges_ordered hq c hcall) hrest
    | samples c data =>
      obtain ⟨lo, hi, hr, hlo, _, hall⟩ := get_range_spec hcall
      have hle : lo ≤ hi := (hall lo hlo).2
      have hstep : replay q (.samples c data :: rest) = replay (q.record c ⟨lo, hi⟩) rest := by
        simp only [replay, record_span_of_get_range hr q c]
      rw [hstep]
      exact ih (q.record c ⟨lo, hi⟩) (record_ranges_ordered hq c hle) hrest

/-- C15: every sequence of `record` calls, each with a range `min ≤ max` or a non-empty sample
sequence, replayed on the empty quantizer, succeeds and leaves a map in which every stored range
has `min ≤ max`. -/
theorem stored_ranges_ordered (calls : List record_call)
    (hadm : ∀ call ∈ calls, call.admissible) :
    ∃ q, replay quantizer.empty calls = .ok q ∧
      ∀ c range, q.quant_ranges_ c = some range → range.min ≤ range.max :=
  replay_ranges_ordered calls quantizer.empty (fun _ _ h => by cases h) hadm

/-- Witness for C15: samples on key 1, then a range on key 1 and a range on key 2. -/
theorem stored_ranges_ordered_witness :
    ∃ q, replay quantizer.empty
        [.samples 1 [3, -1, 2], .range 1 ⟨-2, 1⟩, .range 2 ⟨0, 5⟩] = .ok q ∧
      ∀ c range, q.quant_ranges_ c = some range → range.min ≤ range.max :=
  stored_ranges_ordered [.samples 1 [3, -1, 2], .range 1 ⟨-2, 1⟩, .range 2 ⟨0, 5⟩]
    (by
      intro call hcall
      simp only [List.mem_cons, List.mem_singleton, List.not_mem_nil, or_false] at hcall
      rcases hcall with h | h | h
      · subst h
        simp [record_call.admissible]
      · subst h
        norm_num [record_call.admissible]
      · subst h
        norm_num [record_call.admissible])

/-! ## Precision and narrowing of the fixed-point encoding -/

/-- Scaling by `2^t` stays below `2^bits` exactly when `t ≤ bits - e`. -/
theorem scaled_lt_iff {value : ℚ} (hv : value ≠ 0) (bits t : Int) :
    |value * 2 ^ t| < 2 ^ bits ↔ t ≤ bits - (frexp value).2 := by
  have hpos := two_zpow_pos t
  have hsplit : (2 : ℚ) ^ bits = 2 ^ (bits - t) * 2 ^ t := by
    rw [← zpow_add₀ (by norm_num)]
    congr 1
    ring
  rw [abs_mul, abs_of_pos hpos, hsplit, mul_lt_mul_right hpos, ← frexp_exp_le_iff hv]
  omega

/-- The shift computed by `get_fixed_mul`, before its conversion to `int8_t`, is the largest
admissible one. -/
theorem get_fixed_mul_pair_shift_maximal {value : ℚ} (hv : value ≠ 0) (max_bits : Int)
    (max_shift : Nat) (is_signed : Bool)
    (hdom : |value| < 2 ^ fixed_mul_bits max_bits is_signed) :
    0 ≤ (get_fixed_mul_pair value max_bits max_shift is_signed).2 ∧
    (get_fixed_mul_pair value max_bits max_shift is_signed).2 ≤ max_shift ∧
    |value * 2 ^ (get_fixed_mul_pair value max_bits max_shift is_signed).2| <
      2 ^ fixed_mul_bits max_bits is_signed ∧
    ∀ t : Int, 0 ≤ t → t ≤ max_shift →
      |value * 2 ^ t| < 2 ^ fixed_mul_bits max_bits is_signed →
      t ≤ (get_fixed_mul_pair value max_bits max_shift is_signed).2 := by
  have hs := get_fixed_mul_pair_shift hv max_bits max_shift is_signed
  refine ⟨(get_fixed_mul_pair_shift_nonneg_iff value max_bits max_shift is_signed).mpr hdom,
    get_fixed_mul_pair_shift_le value max_bits max_shift is_signed, ?_, ?_⟩
  · rw [scaled_lt_iff hv, hs]
    exact min_le_right _ _
  · intro t _ ht hlt
    rw [hs]
    exact le_min ht ((scaled_lt_iff hv _ t).mp hlt)

theorem frexp_two_pow_neg_100 : frexp (1 / 2 ^ 100) = (1 / 2, -99) :=
  frexp_unique (by norm_num) (by norm_num [abs_of_pos]) (by norm_num [abs_of_pos])

theorem frexp_two_pow_neg_125 : frexp (1 / 2 ^ 125) = (1 / 2, -124) :=
  frexp_unique (by norm_num) (by norm_num [abs_of_pos]) (by norm_num [abs_of_pos])

theorem get_fixed_mul_pair_tiny_32 :
    get_fixed_mul_pair (1 / 2 ^ 100) 32 255 false = (2 ^ 31, 131) := by
  have hs : (get_fixed_mul_pair (1 / 2 ^ 100) 32 255 false).2 = 131 := by
    rw [get_fixed_mul_pair_shift (by norm_num), frexp_two_pow_neg_100]
    norm_num [fixed_mul_bits]
  have hm := get_fixed_mul_pair_mul (1 / 2 ^ 100) 32 255 false
  rw [hs] at hm
  refine Prod.ext ?_ hs
  rw [hm]
  norm_num

theorem get_fixed_mul_pair_tiny_8 :
    get_fixed_mul_pair (1 / 2 ^ 125) 8 200 false = (128, 132) := by
  have hs : (get_fixed_mul_pair (1 / 2 ^ 125) 8 200 false).2 = 132 := by
    rw [get_fixed_mul_pair_shift (by norm_num), frexp_two_pow_neg_125]
    norm_num [fixed_mul_bits]
  have hm := get_fixed_mul_pair_mul (1 / 2 ^ 125) 8 200 false
  rw [hs] at hm
  refine Prod.ext ?_ hs
  rw [hm]
  norm_num

/-- C16 at its failing input: for `value = 2^-100`, 32 unsigned bits and `max_shift = 255` the
shift computed and asserted is 131, the largest admissible one, but the returned `int8_t` field
is `-125`, outside `0..max_shift` and below the admissible shift 131. -/
theorem fixed_mul_shift_maximal_failure :
    get_fixed_mul_pair (1 / 2 ^ 100) 32 255 false = (2 ^ 31, 131) ∧
    quantizer.get_fixed_mul (1 / 2 ^ 100) 32 255 false = .ok ⟨2 ^ 31, -125⟩ ∧
    ((0 : Int) ≤ 131 ∧ (131 : Int) ≤ (255 : Nat) ∧
      |(1 / 2 ^ 100 : ℚ) * 2 ^ (131 : Int)| < 2 ^ fixed_mul_bits 32 false) ∧
    (-125 : Int) < 131 := by
  refine ⟨get_fixed_mul_pair_tiny_32, ?_, ⟨by norm_num, by norm_num, ?_⟩, by norm_num⟩
  · rw [get_fixed_mul_eq _ 32 255 false (by simp), get_fixed_mul_pair_tiny_32]
    norm_num [fixed_mul_bits, int8_cast, abs_of_pos]
  · norm_num [fixed_mul_bits, abs_of_pos]

/-- C18: for a non-zero value with frexp decomposition `(m, e)` the formulas of the two
non-zero branches of `get_fixed_mul` give the same pair, whatever the magnitude; the computed
pair is `shift = min(max_shift, bits - e)`, `mul = value * 2^shift`, and `mul * 2^-shift` is
the value exactly. -/
theorem fixed_mul_branches_agree (value : ℚ) (max_bits : Int) (max_shift : Nat) (is_signed : Bool)
    (hv : value ≠ 0) :
    (((frexp value).1 *
          2 ^ (std_min (max_shift : Int) (fixed_mul_bits max_bits is_signed - (frexp value).2) +
            (frexp value).2),
        std_min (max_shift : Int) (fixed_mul_bits max_bits is_signed - (frexp value).2)) =
      ((frexp value).1 *
          2 ^ std_min ((max_shift : Int) + (frexp value).2) (fixed_mul_bits max_bits is_signed),
        std_min ((max_shift : Int) + (frexp value).2) (fixed_mul_bits max_bits is_signed) -
          (frexp value).2)) ∧
    get_fixed_mul_pair value max_bits max_shift is_signed =
      (value * 2 ^ min (max_shift : Int) (fixed_mul_bits max_bits is_signed - (frexp value).2),
        min (max_shift : Int) (fixed_mul_bits max_bits is_signed - (frexp value).2)) ∧
    (get_fixed_mul_pair value max_bits max_shift is_signed).1 *
      2 ^ (-(get_fixed_mul_pair value max_bits max_shift is_signed).2) = value := by
  have hs := get_fixed_mul_pair_shift hv max_bits max_shift is_signed
  have hm := get_fixed_mul_pair_mul value max_bits max_shift is_signed
  have hshift : std_min ((max_shift : Int) + (frexp value).2)
        (fixed_mul_bits max_bits is_signed) - (frexp value).2 =
      std_min (max_shift : Int) (fixed_mul_bits max_bits is_signed - (frexp value).2) := by
    rw [std_min_eq_min, std_min_eq_min]
    omega
  refine ⟨?_, ?_, get_fixed_mul_pair_exact value max_bits max_shift is_signed⟩
  · refine Prod.ext ?_ hshift.symm
    show (frexp value).1 * 2 ^ _ = (frexp value).1 * 2 ^ _
    congr 2
    rw [← hshift]
    ring
  · refine Prod.ext ?_ hs
    show (get_fixed_mul_pair value max_bits max_shift is_signed).1 = _
    rw [hm, hs]

/-- Witness for C18: `value = 3`, of magnitude above one, follows the common formula with
`e = 2`. -/
theorem fixed_mul_branches_agree_witness :
    get_fixed_mul_pair 3 8 8 false =
      (3 * 2 ^ min ((8 : Nat) : Int) (fixed_mul_bits 8 false - (frexp 3).2),
        min ((8 : Nat) : Int) (fixed_mul_bits 8 false - (frexp 3).2)) :=
  (fixed_mul_branches_agree 3 8 8 false (by norm_num)).2.1

/-- C19 at its failing input: for `value = 2^-125`, 8 unsigned bits and `max_shift = 200` the
`int32_t` shift is 132 and passes the assertion `0 ≤ 132 ≤ 200`, but the returned field
`static_cast<int8_t>(132)` is `-124`. -/
theorem fixed_mul_shift_narrowing_failure :
    get_fixed_mul_pair (1 / 2 ^ 125) 8 200 false = (128, 132) ∧
    ((0 : Int) ≤ 132 ∧ (132 : Int) ≤ (200 : Nat)) ∧
    int8_cast 132 = -124 ∧
    quantizer.get_fixed_mul (1 / 2 ^ 125) 8 200 false = .ok ⟨128, -124⟩ := by
  refine ⟨get_fixed_mul_pair_tiny_8, ⟨by norm_num, by norm_num⟩, by norm_num [int8_cast], ?_⟩
  rw [get_fixed_mul_eq _ 8 200 false (by simp), get_fixed_mul_pair_tiny_8]
  norm_num [fixed_mul_bits, int8_cast, abs_of_pos]

/-! ## Rounding to nearest, ties to even -/

theorem round_ties_even_eq_of_abs_lt {x : ℚ} {n : Int} (h : |x - n| < 1 / 2) :
    round_ties_even x = n := by
  rw [abs_lt] at h
  unfold round_ties_even
  by_cases hx : (n : ℚ) ≤ x
  · have hf : ⌊x⌋ = n := by
      rw [Int.floor_eq_iff]
      constructor <;> linarith
    rw [hf, if_pos (by linarith)]
  · have hf : ⌊x⌋ = n - 1 := by
      rw [Int.floor_eq_iff]
      push_cast
      constructor <;> linarith
    have h₁ : ¬(x - ((n - 1 : Int) : ℚ) < 1 / 2) := by
      push_cast
      linarith
    have h₂ : 1 / 2 < x - ((n - 1 : Int) : ℚ) := by
      push_cast
      linarith
    rw [hf, if_neg h₁, if_pos h₂]
    ring

theorem round_ties_even_intCast (n : Int) : round_ties_even (n : ℚ) = n :=
  round_ties_even_eq_of_abs_lt (by simp)

theorem floor_le_round_ties_even (x : ℚ) : ⌊x⌋ ≤ round_ties_even x := by
  unfold round_ties_even
  split_ifs <;> omega

theorem round_ties_even_le_floor_add_one (x : ℚ) : round_ties_even x ≤ ⌊x⌋ + 1 := by
  unfold round_ties_even
  split_ifs <;> omega

theorem abs_round_ties_even_sub_le (x : ℚ) : |(round_ties_even x : ℚ) - x| ≤ 1 / 2 := by
  have h₁ := Int.floor_le x
  have h₂ := Int.lt_floor_add_one x
  unfold round_ties_even
  rw [abs_le]
  split_ifs with ha hb hc <;> push_cast <;> constructor <;> linarith

theorem round_ties_even_mono {x y : ℚ} (h : x ≤ y) : round_ties_even x ≤ round_ties_even y := by
  have hfl : ⌊x⌋ ≤ ⌊y⌋ := Int.floor_mono h
  rcases lt_or_eq_of_le hfl with hlt | heq
  · calc round_ties_even x ≤ ⌊x⌋ + 1 := round_ties_even_le_floor_add_one x
      _ ≤ ⌊y⌋ := hlt
      _ ≤ round_ties_even y := floor_le_round_ties_even y
  · unfold round_ties_even
    rw [← heq]
    by_cases h₁ : x - ⌊x⌋ < 1 / 2
    · rw [if_pos h₁]
      split_ifs <;> omega
    · rw [if_neg h₁]
      by_cases h₂ : 1 / 2 < x - ⌊x⌋
      · have h₃ : ¬(y - ⌊x⌋ < 1 / 2) := by linarith
        have h₄ : 1 / 2 < y - (⌊x⌋ : ℚ) := by linarith
        rw [if_pos h₂, if_neg h₃, if_pos h₄]
      · rw [if_neg h₂]
        have h₃ : ¬(y - ⌊x⌋ < 1 / 2) := by linarith
        rw [if_neg h₃]
        by_cases h₄ : 1 / 2 < y - (⌊x⌋ : ℚ)
        · rw [if_pos h₄]
          split_ifs <;> omega
        · rw [if_neg h₄]

/-! ## The nearest value of a binary format -/

theorem ieee_quantum_pos (p : Nat) (emin : Int) (x : ℚ) : 0 < ieee_quantum p emin x :=
  zpow_pos (by norm_num) _

theorem ieee_nearest_zero (p : Nat) (emin : Int) : ieee_nearest p emin 0 = 0 := by
  have h : round_ties_even (0 : ℚ) = 0 := round_ties_even_intCast 0
  simp [ieee_nearest, h]

theorem int_log_lt_of_lt {x : ℚ} (hx : x ≠ 0) {m : Int} (h : |x| < 2 ^ m) :
    Int.log 2 |x| < m := by
  apply (Int.lt_zpow_iff_log_lt (b := 2) (by norm_num) (abs_pos.mpr hx)).mp
  simpa using h

theorem le_int_log_of_le {x : ℚ} (hx : x ≠ 0) {m : Int} (h : 2 ^ m ≤ |x|) :
    m ≤ Int.log 2 |x| := by
  apply (Int.zpow_le_iff_le_log (b := 2) (by norm_num) (abs_pos.mpr hx)).mp
  simpa using h

theorem zpow_int_log_le {x : ℚ} (hx : x ≠ 0) : (2 : ℚ) ^ Int.log 2 |x| ≤ |x| := by
  have h := Int.zpow_log_le_self (b := 2) (by norm_num) (abs_pos.mpr hx)
  simpa using h

theorem lt_zpow_int_log_succ (x : ℚ) : |x| < (2 : ℚ) ^ (Int.log 2 |x| + 1) := by
  have h := Int.lt_zpow_succ_log_self (b := 2) (by norm_num) |x|
  simpa using h

/-- A power of two with a non-negative exponent is the cast of an integer. -/
theorem two_zpow_eq_intCast {j : Int} (hj : 0 ≤ j) : (2 : ℚ) ^ j = (((2 : Int) ^ j.toNat : Int) : ℚ) := by
  obtain ⟨n, rfl⟩ := Int.eq_ofNat_of_zero_le hj
  simp

/-- A value with at most `p` significant bits and an exponent the format reaches is its own
nearest value. -/
theorem ieee_nearest_of_representable (p : Nat) (emin : Int) (n k : Int)
    (hn : |n| < 2 ^ p) (hk : emin - ((p : Int) - 1) ≤ k) :
    ieee_nearest p emin ((n : ℚ) * 2 ^ k) = (n : ℚ) * 2 ^ k := by
  by_cases h0 : n = 0
  · subst h0
    simp [ieee_nearest_zero]
  have hpos : (0 : ℚ) < 2 ^ k := zpow_pos (by norm_num) k
  have hx : (n : ℚ) * 2 ^ k ≠ 0 := mul_ne_zero (by exact_mod_cast h0) hpos.ne'
  have hlt : |(n : ℚ) * 2 ^ k| < 2 ^ ((p : Int) + k) := by
    rw [abs_mul, abs_of_pos hpos, zpow_add₀ (by norm_num), zpow_natCast]
    have : |(n : ℚ)| < 2 ^ p := by exact_mod_cast hn
    exact mul_lt_mul_of_pos_right this hpos
  have hlog := int_log_lt_of_lt hx hlt
  have hj : max (Int.log 2 |(n : ℚ) * 2 ^ k|) emin - ((p : Int) - 1) ≤ k := by
    rcases max_cases (Int.log 2 |(n : ℚ) * 2 ^ k|) emin with ⟨h, _⟩ | ⟨h, _⟩ <;> rw [h] <;> omega
  unfold ieee_nearest ieee_quantum
  generalize max (Int.log 2 |(n : ℚ) * 2 ^ k|) emin - ((p : Int) - 1) = j at hj
  have hsplit : (n : ℚ) * 2 ^ k / 2 ^ j = ((n * 2 ^ (k - j).toNat : Int) : ℚ) := by
    rw [mul_div_assoc, ← zpow_sub₀ (by norm_num), two_zpow_eq_intCast (by omega)]
    push_cast
    ring
  rw [hsplit, round_ties_even_intCast, ← hsplit]
  exact div_mul_cancel₀ _ (zpow_pos (by norm_num) j).ne'

/-- The nearest value is within half a spacing. -/
theorem abs_ieee_nearest_sub_le (p : Nat) (emin : Int) (x : ℚ) :
    |ieee_nearest p emin x - x| ≤ ieee_quantum p emin x / 2 := by
  have hq := ieee_quantum_pos p emin x
  have h := abs_round_ties_even_sub_le (x / ieee_quantum p emin x)
  have hx : ieee_nearest p emin x - x =
      ((round_ties_even (x / ieee_quantum p emin x) : ℚ) - x / ieee_quantum p emin x) *
        ieee_quantum p emin x := by
    unfold ieee_nearest
    field_simp
  rw [hx, abs_mul, abs_of_pos hq]
  calc _ ≤ 1 / 2 * ieee_quantum p emin x := mul_le_mul_of_nonneg_right h hq.le
    _ = ieee_quantum p emin x / 2 := by ring

/-- In the normal range the spacing is at most `2^-(p-1)` times the magnitude. -/
theorem ieee_quantum_le_of_normal (p : Nat) (emin : Int) {x : ℚ} (hx : 2 ^ emin ≤ |x|) :
    ieee_quantum p emin x ≤ |x| * 2 ^ (-((p : Int) - 1)) := by
  have hx0 : x ≠ 0 := by
    intro h
    rw [h, abs_zero] at hx
    exact absurd hx (not_le.mpr (zpow_pos (by norm_num) emin))
  have hlog := le_int_log_of_le hx0 hx
  unfold ieee_quantum
  rw [max_eq_left hlog, sub_eq_add_neg, zpow_add₀ (by norm_num)]
  exact mul_le_mul_of_nonneg_right (zpow_int_log_le hx0) (zpow_pos (by norm_num) _).le

/-- Below the normal range the spacing is that of the subnormals. -/
theorem ieee_quantum_of_subnormal (p : Nat) (emin : Int) {x : ℚ} (hx0 : x ≠ 0)
    (hx : |x| < 2 ^ emin) : ieee_quantum p emin x = 2 ^ (emin - ((p : Int) - 1)) := by
  have hlog := int_log_lt_of_lt hx0 hx
  unfold ieee_quantum
  rw [max_eq_right hlog.le]

theorem ieee_nearest_nonneg (p : Nat) (emin : Int) {x : ℚ} (hx : 0 ≤ x) :
    0 ≤ ieee_nearest p emin x := by
  have hq := ieee_quantum_pos p emin x
  have h : (0 : Int) ≤ round_ties_even (x / ieee_quantum p emin x) := by
    have := round_ties_even_mono (div_nonneg hx hq.le)
    rwa [show ((0 : ℚ)) = ((0 : Int) : ℚ) by simp, round_ties_even_intCast] at this
  unfold ieee_nearest
  exact mul_nonneg (by exact_mod_cast h) hq.le

/-- Below `2^(e+1)`, with spacing `2^(e-(p-1))`, the nearest value is at most `2^(e+1)`. -/
theorem ieee_nearest_le_pow (p : Nat) (emin : Int) (x : ℚ) :
    ieee_nearest p emin x ≤ 2 ^ (max (Int.log 2 |x|) emin + 1) := by
  have hlt : x < 2 ^ (Int.log 2 |x| + 1) :=
    lt_of_le_of_lt (le_abs_self x) (lt_zpow_int_log_succ x)
  set e := max (Int.log 2 |x|) emin with he
  have hle : Int.log 2 |x| + 1 ≤ e + 1 := by
    have := le_max_left (Int.log 2 |x|) emin
    omega
  have hxe : x < 2 ^ (e + 1) := lt_of_lt_of_le hlt (zpow_le_zpow_right₀ (by norm_num) hle)
  have hq : (0 : ℚ) < 2 ^ (e - ((p : Int) - 1)) := zpow_pos (by norm_num) _
  have hdiv : x / 2 ^ (e - ((p : Int) - 1)) ≤ (((2 : Int) ^ p : Int) : ℚ) := by
    rw [div_le_iff₀ hq]
    push_cast
    rw [← zpow_natCast, ← zpow_add₀ (by norm_num)]
    have : (p : Int) + (e - ((p : Int) - 1)) = e + 1 := by ring
    rw [this]
    exact hxe.le
  have hr := round_ties_even_mono hdiv
  rw [round_ties_even_intCast] at hr
  unfold ieee_nearest ieee_quantum
  rw [← he]
  calc (round_ties_even (x / 2 ^ (e - ((p : Int) - 1))) : ℚ) * 2 ^ (e - ((p : Int) - 1))
      ≤ (((2 : Int) ^ p : Int) : ℚ) * 2 ^ (e - ((p : Int) - 1)) :=
        mul_le_mul_of_nonneg_right (by exact_mod_cast hr) hq.le
    _ = 2 ^ (e + 1) := by
        push_cast
        rw [← zpow_natCast, ← zpow_add₀ (by norm_num)]
        congr 1
        ring

/-- In the normal range the nearest value is at least the power of two below `x`. -/
theorem pow_le_ieee_nearest (p : Nat) (hp : 1 ≤ p) (emin : Int) {x : ℚ} (hx0 : x ≠ 0)
    (hx : 0 ≤ x) (hlog : emin ≤ Int.log 2 |x|) :
    2 ^ Int.log 2 |x| ≤ ieee_nearest p emin x := by
  have habs := abs_of_nonneg hx
  have hge := zpow_int_log_le hx0
  rw [habs] at hge hlog ⊢
  unfold ieee_nearest ieee_quantum
  rw [habs, max_eq_left hlog]
  generalize Int.log 2 x = e at hge
  have hq : (0 : ℚ) < 2 ^ (e - ((p : Int) - 1)) := zpow_pos (by norm_num) _
  have hdiv : (((2 : Int) ^ (p - 1) : Int) : ℚ) ≤ x / 2 ^ (e - ((p : Int) - 1)) := by
    rw [le_div_iff₀ hq]
    push_cast
    rw [← zpow_natCast, ← zpow_add₀ (by norm_num)]
    have : ((p - 1 : Nat) : Int) + (e - ((p : Int) - 1)) = e := by omega
    rw [this]
    exact hge
  have hr := round_ties_even_mono hdiv
  rw [round_ties_even_intCast] at hr
  calc (2 : ℚ) ^ e = (((2 : Int) ^ (p - 1) : Int) : ℚ) * 2 ^ (e - ((p : Int) - 1)) := by
        push_cast
        rw [← zpow_natCast, ← zpow_add₀ (by norm_num)]
        congr 1
        omega
    _ ≤ (round_ties_even (x / 2 ^ (e - ((p : Int) - 1))) : ℚ) * 2 ^ (e - ((p : Int) - 1)) :=
        mul_le_mul_of_nonneg_right (by exact_mod_cast hr) hq.le

/-- Rounding to nearest is monotone on the non-negative reals. -/
theorem ieee_nearest_mono (p : Nat) (hp : 1 ≤ p) (emin : Int) {x y : ℚ} (hx : 0 ≤ x)
    (hxy : x ≤ y) : ieee_nearest p emin x ≤ ieee_nearest p emin y := by
  have hy : 0 ≤ y := hx.trans hxy
  by_cases hx0 : x = 0
  · rw [hx0, ieee_nearest_zero]
    exact ieee_nearest_nonneg p emin hy
  have hxpos : 0 < x := lt_of_le_of_ne hx (Ne.symm hx0)
  have hy0 : y ≠ 0 := (hxpos.trans_le hxy).ne'
  have hlog : Int.log 2 |x| ≤ Int.log 2 |y| := by
    rw [abs_of_nonneg hx, abs_of_nonneg hy]
    exact Int.log_mono_right hxpos hxy
  have hmax : max (Int.log 2 |x|) emin ≤ max (Int.log 2 |y|) emin := max_le_max hlog le_rfl
  rcases lt_or_eq_of_le hmax with hlt | heq
  · have hy_norm : emin ≤ Int.log 2 |y| ∧ max (Int.log 2 |y|) emin = Int.log 2 |y| := by
      rcases max_cases (Int.log 2 |y|) emin with ⟨h, h'⟩ | ⟨h, h'⟩
      · exact ⟨h', h⟩
      · exfalso
        have := le_max_right (Int.log 2 |x|) emin
        omega
    calc ieee_nearest p emin x ≤ 2 ^ (max (Int.log 2 |x|) emin + 1) :=
          ieee_nearest_le_pow p emin x
      _ ≤ 2 ^ Int.log 2 |y| := zpow_le_zpow_right₀ (by norm_num) (by omega)
      _ ≤ ieee_nearest p emin y := pow_le_ieee_nearest p hp emin hy0 hy hy_norm.1
  · have hq := ieee_quantum_pos p emin y
    have hqeq : ieee_quantum p emin x = ieee_quantum p emin y := by
      unfold ieee_quantum
      rw [heq]
    unfold ieee_nearest
    rw [hqeq]
    have hr := round_ties_even_mono (div_le_div_of_nonneg_right hxy hq.le)
    exact mul_le_mul_of_nonneg_right (by exact_mod_cast hr) hq.le

/-- Evaluating the nearest value from the binade of `x` and the integer next to the scaled
value. -/
theorem ieee_nearest_eq_of_bracket (p : Nat) (emin : Int) {x : ℚ} (e n : Int)
    (hlo : 2 ^ e ≤ |x|) (hhi : |x| < 2 ^ (e + 1)) (hemin : emin ≤ e)
    (hn : |x / 2 ^ (e - ((p : Int) - 1)) - n| < 1 / 2) :
    ieee_nearest p emin x = n * 2 ^ (e - ((p : Int) - 1)) := by
  have hx0 : x ≠ 0 := by
    intro h
    rw [h, abs_zero] at hlo
    exact absurd hlo (not_le.mpr (zpow_pos (by norm_num) e))
  have hlog : Int.log 2 |x| = e := by
    have h₁ := le_int_log_of_le hx0 hlo
    have h₂ := int_log_lt_of_lt hx0 hhi
    omega
  unfold ieee_nearest ieee_quantum
  rw [hlog, max_eq_left hemin, round_ties_even_eq_of_abs_lt hn]

theorem binary32_round_eq (x : ℚ) :
    binary32_round x =
      if |ieee_nearest 24 (-126) x| < 2 ^ 128 then some (ieee_nearest 24 (-126) x) else none := by
  have h : (2 : ℚ) ^ ((127 : Int) + 1) = 2 ^ 128 := by norm_num
  unfold binary32_round ieee_round
  rw [h]

theorem binary64_round_eq (x : ℚ) :
    binary64_round x =
      if |ieee_nearest 53 (-1022) x| < 2 ^ 1024 then some (ieee_nearest 53 (-1022) x)
      else none := by
  have h : (2 : ℚ) ^ ((1023 : Int) + 1) = 2 ^ 1024 := by norm_num
  unfold binary64_round ieee_round
  rw [h]

theorem binary32_round_of_is_binary32 {x : ℚ} (hx : is_binary32 x) :
    binary32_round x = some x := by
  obtain ⟨n, k, rfl, hn, hk, hmag⟩ := hx
  have h := ieee_nearest_of_representable 24 (-126) n k (by exact_mod_cast hn) (by omega)
  rw [binary32_round_eq, h, if_pos hmag]

/-- Every binary32 value is a binary64 value. -/
theorem binary64_round_of_is_binary32 {x : ℚ} (hx : is_binary32 x) :
    binary64_round x = some x := by
  obtain ⟨n, k, rfl, hn, hk, hmag⟩ := hx
  have hn' : |n| < 2 ^ 53 := lt_trans hn (by norm_num)
  have h := ieee_nearest_of_representable 53 (-1022) n k (by exact_mod_cast hn') (by omega)
  have hmag' : |(n : ℚ) * 2 ^ k| < 2 ^ 1024 :=
    lt_of_lt_of_le hmag (pow_le_pow_right₀ (by norm_num) (by norm_num))
  rw [binary64_round_eq, h, if_pos hmag']

theorem is_binary32_intCast {n : Int} (h : |n| < 2 ^ 24) : is_binary32 (n : ℚ) := by
  refine ⟨n, 0, by simp, h, by norm_num, ?_⟩
  have h' : |(n : ℚ)| < 2 ^ 24 := by exact_mod_cast h
  exact lt_trans h' (by norm_num)

theorem is_binary32_zero : is_binary32 0 := by
  simpa using is_binary32_intCast (n := 0) (by norm_num)

/-- A rounding below a binary32 value does not overflow and stays below it. -/
theorem binary32_round_of_le {x y : ℚ} (hx : 0 ≤ x) (hxy : x ≤ y) (hy : is_binary32 y) :
    binary32_round x = some (ieee_nearest 24 (-126) x) ∧ 0 ≤ ieee_nearest 24 (-126) x ∧
      ieee_nearest 24 (-126) x ≤ y := by
  have hnn := ieee_nearest_nonneg 24 (-126) hx
  have hle : ieee_nearest 24 (-126) x ≤ y := by
    have h := ieee_nearest_mono 24 (by norm_num) (-126) hx hxy
    have hy' := binary32_round_of_is_binary32 hy
    rw [binary32_round_eq] at hy'
    split_ifs at hy' with hlt
    · rw [Option.some.injEq] at hy'
      rwa [hy'] at h
  obtain ⟨_, _, _, _, _, hmag⟩ := hy
  refine ⟨?_, hnn, hle⟩
  have hlt : |ieee_nearest 24 (-126) x| < 2 ^ 128 := by
    rw [abs_of_nonneg hnn]
    calc ieee_nearest 24 (-126) x ≤ y := hle
      _ ≤ |y| := le_abs_self y
      _ < 2 ^ 128 := hmag
  rw [binary32_round_eq, if_pos hlt]

theorem binary32_round_float_0_001 : binary32_round (1 / 1000) = some float_0_001 := by
  have h := ieee_nearest_eq_of_bracket 24 (-126) (x := 1 / 1000) (-10) 8589935
    (by norm_num [abs_of_pos]) (by norm_num [abs_of_pos]) (by norm_num)
    (by norm_num [abs_lt])
  rw [binary32_round_eq, h, if_pos (by norm_num [abs_of_pos])]
  norm_num [float_0_001]

theorem is_binary32_float_0_001 : is_binary32 float_0_001 :=
  ⟨8589935, -33, by norm_num [float_0_001], by norm_num, by norm_num,
    by norm_num [float_0_001, abs_of_pos]⟩


/-! ## `get_quant_param` in binary32 -/

/-- The result of the binary32 `get_quant_param` from the values of its float locals, when the
span `r` is finite. -/
theorem get_quant_param_binary32_eq (range : value_range) (bits : Int) {p : Int} {r n s t : ℚ}
    (hshl : shl_one bits = some p)
    (hr : binary32_round ((clamp_zero range).max - (clamp_zero range).min) = some r)
    (hn : binary32_round ((p - 1 : Int) : ℚ) = some n)
    (hs : binary32_round (n / (if r < float_0_001 then float_0_001 else r)) = some s)
    (ht : binary32_round (-(clamp_zero range).min * s) = some t) :
    quantizer.get_quant_param_binary32 range bits =
      if std_round t ≥ 0 then
        match to_int32 (std_round t) with
        | none => .error .UndefinedBehaviour
        | some b => .ok ⟨b, s⟩
      else .error .InvalidQuantizationState := by
  unfold quantizer.get_quant_param_binary32
  simp only [hr, hshl, hn]
  by_cases hc : r < float_0_001
  · simp only [hc, if_true] at hs ⊢
    simp only [hs, ht]
  · simp only [hc, if_false] at hs ⊢
    simp only [hs, ht]

theorem std_round_intCast (n : Int) : std_round (n : ℚ) = n := by
  rcases le_or_lt 0 n with h | h
  · exact std_round_eq_of_nonneg (by exact_mod_cast h) (by linarith) (by linarith)
  · have h' : std_round ((-n : Int) : ℚ) = -n :=
      std_round_eq_of_nonneg (by exact_mod_cast (by omega : (0 : Int) ≤ -n))
        (by push_cast; linarith) (by push_cast; linarith)
    have := std_round_neg ((-n : Int) : ℚ)
    rw [h'] at this
    push_cast at this
    rw [neg_neg] at this
    omega

theorem binary32_round_two_pow_31_sub_one :
    binary32_round 2147483647 = some 2147483648 := by
  have h := ieee_nearest_eq_of_bracket 24 (-126) (x := 2147483647) 30 (2 ^ 24)
    (by norm_num [abs_of_pos]) (by norm_num [abs_of_pos]) (by norm_num)
    (by norm_num [abs_lt])
  rw [binary32_round_eq, h, if_pos (by norm_num [abs_of_pos])]
  norm_num

theorem is_binary32_two_pow_31 : is_binary32 2147483648 :=
  ⟨1, 31, by norm_num, by norm_num, by norm_num, by norm_num [abs_of_pos]⟩

theorem get_quant_param_binary32_overflow :
    quantizer.get_quant_param_binary32 ⟨-1, 0⟩ 31 = .error .UndefinedBehaviour := by
  have hc : clamp_zero ⟨-1, 0⟩ = ⟨-1, 0⟩ := by
    norm_num [clamp_zero]
  have hone : binary32_round 1 = some 1 := by
    simpa using binary32_round_of_is_binary32 (is_binary32_intCast (n := 1) (by norm_num))
  have hbig := binary32_round_of_is_binary32 is_binary32_two_pow_31
  have hround : std_round 2147483648 = 2147483648 := by
    simpa using std_round_intCast 2147483648
  rw [get_quant_param_binary32_eq ⟨-1, 0⟩ 31 (p := 2147483648) (r := 1) (n := 2147483648)
    (s := 2147483648) (t := 2147483648) (by simp [shl_one]) (by rw [hc]; norm_num [hone])
    (by norm_num [binary32_round_two_pow_31_sub_one])
    (by norm_num [float_0_001, hbig]) (by rw [hc]; norm_num [hbig])]
  rw [hround]
  norm_num [to_int32]

theorem quant_span_of_le {range : value_range}
    (h : float_0_001 ≤ (clamp_zero range).max - (clamp_zero range).min) :
    quant_span range = (clamp_zero range).max - (clamp_zero range).min := by
  have hc : (1 / 1000 : ℚ) ≤ float_0_001 := by norm_num [float_0_001]
  rw [quant_span_eq_max]
  exact max_eq_left (hc.trans h)

/-- When the span, the scale and the product of the exact computation are binary32 values, the
span is not floored and `2^bits - 1` converts exactly, the binary32 computation is the exact
one. -/
theorem get_quant_param_binary32_of_exact (range : value_range) (bits : Int)
    (h₀ : 0 ≤ bits) (h₁ : bits ≤ 24)
    (hspan : float_0_001 ≤ (clamp_zero range).max - (clamp_zero range).min)
    (hd : is_binary32 ((clamp_zero range).max - (clamp_zero range).min))
    (hscale : is_binary32 (quant_scale range bits))
    (hprod : is_binary32 (-(clamp_zero range).min * quant_scale range bits)) :
    quantizer.get_quant_param_binary32 range bits =
      .ok ⟨quant_bias range bits, quant_scale range bits⟩ := by
  have hshl : shl_one bits = some (2 ^ bits.toNat) := by simp [shl_one, h₀]; omega
  have hpow : (2 : Int) ^ bits.toNat ≤ 2 ^ 24 := pow_le_pow_right₀ (by norm_num) (by omega)
  have hpos : (0 : Int) < 2 ^ bits.toNat := by positivity
  have hn : is_binary32 (((2 ^ bits.toNat - 1 : Int)) : ℚ) :=
    is_binary32_intCast (by rw [abs_lt]; constructor <;> omega)
  have hfloor : ¬((clamp_zero range).max - (clamp_zero range).min < float_0_001) :=
    not_lt.mpr hspan
  have hs : quant_scale range bits =
      (((2 ^ bits.toNat - 1 : Int)) : ℚ) /
        (if (clamp_zero range).max - (clamp_zero range).min < float_0_001 then float_0_001
          else (clamp_zero range).max - (clamp_zero range).min) := by
    rw [if_neg hfloor, quant_scale, quant_span_of_le hspan]
  rw [get_quant_param_binary32_eq range bits hshl (binary32_round_of_is_binary32 hd)
    (binary32_round_of_is_binary32 hn) (by rw [← hs]; exact binary32_round_of_is_binary32 hscale)
    (binary32_round_of_is_binary32 hprod)]
  have hb : std_round (-(clamp_zero range).min * quant_scale range bits) = quant_bias range bits :=
    rfl
  have hfit := quant_bias_fits range bits (by omega)
  have hnn := quant_bias_nonneg range bits
  have hto : to_int32 (quant_bias range bits) = some (quant_bias range bits) := by
    unfold to_int32
    rw [if_pos ⟨le_trans (by norm_num) hnn, hfit⟩]
  rw [hb, if_pos hnn, hto]

theorem is_binary32_of_small (n k : Int) (hn : |n| < 2 ^ 24) (hk₀ : -149 ≤ k) (hk₁ : k ≤ 100) :
    is_binary32 ((n : ℚ) * 2 ^ k) := by
  refine ⟨n, k, rfl, hn, hk₀, ?_⟩
  have hpos : (0 : ℚ) < 2 ^ k := zpow_pos (by norm_num) k
  have h₁ : |(n : ℚ)| < 2 ^ 24 := by exact_mod_cast hn
  have h₂ : (2 : ℚ) ^ k ≤ 2 ^ (100 : Int) := zpow_le_zpow_right₀ (by norm_num) hk₁
  rw [abs_mul, abs_of_pos hpos]
  calc |(n : ℚ)| * 2 ^ k ≤ 2 ^ 24 * 2 ^ (100 : Int) :=
        mul_le_mul h₁.le h₂ hpos.le (by norm_num)
    _ < 2 ^ 128 := by norm_num

theorem get_quant_param_binary32_unit_range :
    quantizer.get_quant_param_binary32 ⟨-1, 1⟩ 8 = .ok ⟨128, 255 / 2⟩ := by
  have hc : clamp_zero ⟨-1, 1⟩ = ⟨-1, 1⟩ := by
    norm_num [clamp_zero]
  obtain ⟨_, _, hq⟩ := get_quant_param_ok get_quant_param_unit_range
  have hscale : quant_scale ⟨-1, 1⟩ 8 = 255 / 2 := (congrArg quant_param_t.scale hq).symm
  rw [hq]
  apply get_quant_param_binary32_of_exact _ _ (by norm_num) (by norm_num)
  · rw [hc]
    norm_num [float_0_001]
  · rw [hc]
    have := is_binary32_of_small 2 0 (by norm_num) (by norm_num) (by norm_num)
    norm_num at this ⊢
    exact this
  · rw [hscale]
    have := is_binary32_of_small 255 (-1) (by norm_num) (by norm_num) (by norm_num)
    norm_num at this ⊢
    exact this
  · rw [hscale, hc]
    have := is_binary32_of_small 255 (-1) (by norm_num) (by norm_num) (by norm_num)
    norm_num at this ⊢
    exact this

/-- The binary32 computation on `{-1, 0}` at 26 bits: `2^26 - 1` converts to the float `2^26`. -/
theorem get_quant_param_binary32_wide :
    quantizer.get_quant_param_binary32 ⟨-1, 0⟩ 26 = .ok ⟨67108864, 67108864⟩ := by
  have hc : clamp_zero ⟨-1, 0⟩ = ⟨-1, 0⟩ := by
    norm_num [clamp_zero]
  have hone : binary32_round 1 = some 1 := by
    simpa using binary32_round_of_is_binary32 (is_binary32_intCast (n := 1) (by norm_num))
  have hn : binary32_round 67108863 = some 67108864 := by
    have h := ieee_nearest_eq_of_bracket 24 (-126) (x := 67108863) 25 (2 ^ 24)
      (by norm_num [abs_of_pos]) (by norm_num [abs_of_pos]) (by norm_num)
      (by norm_num [abs_lt])
    rw [binary32_round_eq, h, if_pos (by norm_num [abs_of_pos])]
    norm_num
  have hbig : binary32_round 67108864 = some 67108864 :=
    binary32_round_of_is_binary32
      ⟨1, 26, by norm_num, by norm_num, by norm_num, by norm_num [abs_of_pos]⟩
  have hround : std_round 67108864 = 67108864 := by
    simpa using std_round_intCast 67108864
  rw [get_quant_param_binary32_eq ⟨-1, 0⟩ 26 (p := 67108864) (r := 1) (n := 67108864)
    (s := 67108864) (t := 67108864) (by simp [shl_one]) (by rw [hc]; norm_num [hone])
    (by norm_num [hn]) (by norm_num [float_0_001, hbig]) (by rw [hc]; norm_num [hbig])]
  rw [hround]
  norm_num [to_int32]

/-! ## Error bounds of binary32 rounding -/

/-- Rounding a non-negative real up costs at most a relative `2^-24`, or an absolute `2^-150`
below the normal range. -/
theorem binary32_nearest_le (x : ℚ) (hx : 0 ≤ x) :
    ieee_nearest 24 (-126) x ≤ x * (1 + 1 / 2 ^ 24) ∨
      ieee_nearest 24 (-126) x ≤ x + 1 / 2 ^ 150 := by
  have herr := abs_ieee_nearest_sub_le 24 (-126) x
  rw [abs_le] at herr
  by_cases hnorm : (2 : ℚ) ^ (-126 : Int) ≤ |x|
  · left
    have hq := ieee_quantum_le_of_normal 24 (-126) hnorm
    rw [abs_of_nonneg hx] at hq
    have h23 : (2 : ℚ) ^ (-(((24 : Nat) : Int) - 1)) = 1 / 2 ^ 23 := by norm_num
    rw [h23] at hq
    have : x * (1 / 2 ^ 23) / 2 = x * (1 / 2 ^ 24) := by ring
    linarith [herr.2]
  · right
    by_cases hx0 : x = 0
    · rw [hx0, ieee_nearest_zero]
      norm_num
    · have hq := ieee_quantum_of_subnormal 24 (-126) hx0 (not_le.mp hnorm)
      have h149 : (2 : ℚ) ^ ((-126 : Int) - (((24 : Nat) : Int) - 1)) = 1 / 2 ^ 149 := by norm_num
      rw [h149] at hq
      rw [hq] at herr
      have : (1 : ℚ) / 2 ^ 149 / 2 = 1 / 2 ^ 150 := by norm_num
      linarith [herr.2]

/-- Rounding a non-negative real of the normal range down costs at most a relative `2^-24`. -/
theorem le_binary32_nearest (x : ℚ) (hx : 0 ≤ x) (hnorm : (1 : ℚ) / 2 ^ 126 ≤ x) :
    x * (1 - 1 / 2 ^ 24) ≤ ieee_nearest 24 (-126) x := by
  have herr := abs_ieee_nearest_sub_le 24 (-126) x
  rw [abs_le] at herr
  have hnorm' : (2 : ℚ) ^ (-126 : Int) ≤ |x| := by
    rw [abs_of_nonneg hx]
    have : (2 : ℚ) ^ (-126 : Int) = 1 / 2 ^ 126 := by norm_num
    rw [this]
    exact hnorm
  have hq := ieee_quantum_le_of_normal 24 (-126) hnorm'
  rw [abs_of_nonneg hx] at hq
  have h23 : (2 : ℚ) ^ (-(((24 : Nat) : Int) - 1)) = 1 / 2 ^ 23 := by norm_num
  rw [h23] at hq
  have : x * (1 / 2 ^ 23) / 2 = x * (1 / 2 ^ 24) := by ring
  linarith [herr.1]

/-- A binary32 value below a real stays below its rounding. -/
theorem le_binary32_nearest_of_le {y x : ℚ} (hy : is_binary32 y) (hy0 : 0 ≤ y) (hyx : y ≤ x) :
    y ≤ ieee_nearest 24 (-126) x := by
  have h := ieee_nearest_mono 24 (by norm_num) (-126) hy0 hyx
  have hy' := binary32_round_of_is_binary32 hy
  rw [binary32_round_eq] at hy'
  split_ifs at hy' with hlt
  · rw [Option.some.injEq] at hy'
    rwa [hy'] at h

theorem is_binary32_neg {x : ℚ} (hx : is_binary32 x) : is_binary32 (-x) := by
  obtain ⟨n, k, rfl, hn, hk, hmag⟩ := hx
  refine ⟨-n, k, by push_cast; ring, by rwa [abs_neg], hk, by rwa [abs_neg]⟩

theorem is_binary32_two_pow {k : Int} (h₀ : -149 ≤ k) (h₁ : k ≤ 100) : is_binary32 (2 ^ k) := by
  have := is_binary32_of_small 1 k (by norm_num) h₀ h₁
  simpa using this

theorem is_binary32_clamp_zero {range : value_range} (hmin : is_binary32 range.min)
    (hmax : is_binary32 range.max) :
    is_binary32 (clamp_zero range).min ∧ is_binary32 (clamp_zero range).max := by
  rw [clamp_zero_min, clamp_zero_max]
  constructor
  · split_ifs
    · exact is_binary32_zero
    · exact hmin
  · split_ifs
    · exact is_binary32_zero
    · exact hmax

theorem std_round_zero : std_round 0 = 0 :=
  std_round_eq_of_nonneg le_rfl (by norm_num) (by norm_num)

theorem binary32_round_zero : binary32_round 0 = some 0 :=
  binary32_round_of_is_binary32 is_binary32_zero

/-- The result of the binary32 `get_quant_param` when the span overflows to `+inf`: the scale
is the quotient of a finite float by `+inf`, zero, and so is the bias. -/
theorem get_quant_param_binary32_eq_of_overflow (range : value_range) (bits : Int) {p : Int}
    {n : ℚ} (hshl : shl_one bits = some p)
    (hr : binary32_round ((clamp_zero range).max - (clamp_zero range).min) = none)
    (hn : binary32_round ((p - 1 : Int) : ℚ) = some n) :
    quantizer.get_quant_param_binary32 range bits = .ok ⟨0, 0⟩ := by
  unfold quantizer.get_quant_param_binary32
  simp only [hr, hshl, hn, mul_zero, binary32_round_zero, std_round_zero]
  norm_num [to_int32]

/-- The conversion of `(1LL << bits) - 1` to float: finite, at most `2^bits`, and exact up to 24
bits. -/
theorem binary32_round_shifted (bits : Int) (h₀ : 0 ≤ bits) (h₁ : bits ≤ 62) :
    ∃ n : ℚ, binary32_round (((2 ^ bits.toNat - 1 : Int)) : ℚ) = some n ∧ 0 ≤ n ∧
      n ≤ 2 ^ bits.toNat ∧ (bits ≤ 24 → n = 2 ^ bits.toNat - 1) := by
  obtain ⟨k, rfl⟩ := Int.eq_ofNat_of_zero_le h₀
  have hk : k ≤ 62 := by omega
  simp only [Int.toNat_ofNat]
  have hpos : (1 : Int) ≤ 2 ^ k := one_le_pow₀ (by norm_num)
  have hfloat : is_binary32 ((2 : ℚ) ^ k) := by
    have := is_binary32_two_pow (k := (k : Int)) (by omega) (by omega)
    rwa [zpow_natCast] at this
  have hx0 : (0 : ℚ) ≤ (((2 ^ k - 1 : Int)) : ℚ) := by
    exact_mod_cast (by omega : (0 : Int) ≤ 2 ^ k - 1)
  have hxle : (((2 ^ k - 1 : Int)) : ℚ) ≤ 2 ^ k := by
    push_cast
    linarith
  obtain ⟨hsome, hnn, hle⟩ := binary32_round_of_le hx0 hxle hfloat
  refine ⟨_, hsome, hnn, hle, fun h24 => ?_⟩
  have hk24 : k ≤ 24 := by omega
  have hpow : (2 : Int) ^ k ≤ 2 ^ 24 := pow_le_pow_right₀ (by norm_num) hk24
  have hrep : is_binary32 (((2 ^ k - 1 : Int)) : ℚ) :=
    is_binary32_intCast (by rw [abs_lt]; constructor <;> omega)
  have hexact := binary32_round_of_is_binary32 hrep
  rw [hsome, Option.some.injEq] at hexact
  rw [hexact]
  push_cast
  ring

/-- The float span `r` of `get_quant_param` before the floor: an overflow, or a finite float
that is at least `-min'` and at least the real span less a relative `2^-24`. -/
theorem binary32_span (lo hi : ℚ) (hlo : is_binary32 lo) (hlo0 : lo ≤ 0) (hhi0 : 0 ≤ hi) :
    binary32_round (hi - lo) = none ∨
    ∃ r : ℚ, binary32_round (hi - lo) = some r ∧ 0 ≤ r ∧ r < 2 ^ 128 ∧ -lo ≤ r ∧
      ((hi - lo) * (1 - 1 / 2 ^ 24) ≤ r ∨ hi - lo < 1 / 2 ^ 126) := by
  have hd : 0 ≤ hi - lo := by linarith
  have hnn := ieee_nearest_nonneg 24 (-126) hd
  rw [binary32_round_eq]
  by_cases hfin : |ieee_nearest 24 (-126) (hi - lo)| < 2 ^ 128
  · right
    refine ⟨_, by rw [if_pos hfin], hnn, by rwa [abs_of_nonneg hnn] at hfin, ?_, ?_⟩
    · exact le_binary32_nearest_of_le (is_binary32_neg hlo) (by linarith) (by linarith)
    · by_cases hnorm : (1 : ℚ) / 2 ^ 126 ≤ hi - lo
      · exact Or.inl (le_binary32_nearest _ hd hnorm)
      · exact Or.inr (not_le.mp hnorm)
  · left
    rw [if_neg hfin]

/-- The float `scale` of `get_quant_param`: finite, non-negative, and `r * scale` exceeds the
numerator by at most a relative `2^-24` or an absolute `2^-22`. -/
theorem binary32_scale (n r : ℚ) (hn0 : 0 ≤ n) (hn : n ≤ 2 ^ 62) (hr : float_0_001 ≤ r)
    (hr128 : r < 2 ^ 128) :
    ∃ s : ℚ, binary32_round (n / r) = some s ∧ 0 ≤ s ∧
      (r * s ≤ n * (1 + 1 / 2 ^ 24) ∨ r * s ≤ n + 1 / 2 ^ 22) := by
  have hc : (1 : ℚ) / 2 ^ 10 ≤ float_0_001 := by norm_num [float_0_001]
  have hrpos : 0 < r := lt_of_lt_of_le (by norm_num) (hc.trans hr)
  have hz0 : 0 ≤ n / r := div_nonneg hn0 hrpos.le
  have hz : n / r ≤ 2 ^ (72 : Int) := by
    rw [div_le_iff₀ hrpos]
    have h72 : (2 : ℚ) ^ (72 : Int) = 2 ^ 72 := by norm_num
    rw [h72]
    calc n ≤ 2 ^ 62 := hn
      _ = 2 ^ 72 * (1 / 2 ^ 10) := by norm_num
      _ ≤ 2 ^ 72 * r := mul_le_mul_of_nonneg_left (hc.trans hr) (by norm_num)
  obtain ⟨hsome, hs0, _⟩ := binary32_round_of_le hz0 hz (is_binary32_two_pow (by norm_num)
    (by norm_num))
  refine ⟨_, hsome, hs0, ?_⟩
  have hrz : r * (n / r) = n := mul_div_cancel₀ n hrpos.ne'
  rcases binary32_nearest_le (n / r) hz0 with h | h
  · left
    calc r * ieee_nearest 24 (-126) (n / r) ≤ r * (n / r * (1 + 1 / 2 ^ 24)) :=
          mul_le_mul_of_nonneg_left h hrpos.le
      _ = n * (1 + 1 / 2 ^ 24) := by rw [← mul_assoc, hrz]
  · right
    calc r * ieee_nearest 24 (-126) (n / r) ≤ r * (n / r + 1 / 2 ^ 150) :=
          mul_le_mul_of_nonneg_left h hrpos.le
      _ = n + r * (1 / 2 ^ 150) := by rw [mul_add, hrz]
      _ ≤ n + 2 ^ 128 * (1 / 2 ^ 150) := by
          have := mul_le_mul_of_nonneg_right hr128.le (by norm_num : (0 : ℚ) ≤ 1 / 2 ^ 150)
          linarith
      _ = n + 1 / 2 ^ 22 := by norm_num

/-- The float product `-min' * scale` of `get_quant_param`: finite and non-negative. -/
theorem binary32_product (m s : ℚ) (hm : 0 ≤ m) (hs : 0 ≤ s) (hms : m * s ≤ 2 ^ 64) :
    binary32_round (m * s) = some (ieee_nearest 24 (-126) (m * s)) ∧
      0 ≤ ieee_nearest 24 (-126) (m * s) := by
  have h64 : (2 : ℚ) ^ (64 : Int) = 2 ^ 64 := by norm_num
  obtain ⟨hsome, h0, _⟩ := binary32_round_of_le (mul_nonneg hm hs) (hms.trans h64.ge)
    (is_binary32_two_pow (by norm_num) (by norm_num))
  exact ⟨hsome, h0⟩

/-- The binary32 `get_quant_param` on a range of floats, for a defined shift: either the span
overflows and the result is `{0, 0}`, or the locals `r`, `n`, `scale`, `product` are finite
floats within the stated error bounds and the result is the rounded product, provided it fits
`int32_t`. -/
theorem get_quant_param_binary32_analysis (range : value_range) (bits : Int)
    (hmin : is_binary32 range.min) (hmax : is_binary32 range.max)
    (h₀ : 0 ≤ bits) (h₁ : bits ≤ 62) :
    quantizer.get_quant_param_binary32 range bits = .ok ⟨0, 0⟩ ∨
    ∃ r n s : ℚ,
      float_0_001 ≤ r ∧ -(clamp_zero range).min ≤ r ∧
      ((clamp_zero range).max - (clamp_zero range).min) * (1 - 1 / 2 ^ 24) ≤ r ∧
      0 ≤ n ∧ n ≤ 2 ^ bits.toNat ∧ (bits ≤ 24 → n = 2 ^ bits.toNat - 1) ∧
      0 ≤ s ∧ (r * s ≤ n * (1 + 1 / 2 ^ 24) ∨ r * s ≤ n + 1 / 2 ^ 22) ∧
      0 ≤ ieee_nearest 24 (-126) (-(clamp_zero range).min * s) ∧
      quantizer.get_quant_param_binary32 range bits =
        if std_round (ieee_nearest 24 (-126) (-(clamp_zero range).min * s)) ≤ 2 ^ 31 - 1 then
          .ok ⟨std_round (ieee_nearest 24 (-126) (-(clamp_zero range).min * s)), s⟩
        else .error .UndefinedBehaviour := by
  obtain ⟨hcmin, _⟩ := is_binary32_clamp_zero hmin hmax
  have hmin0 := clamp_zero_min_nonpos range
  have hmax0 := clamp_zero_max_nonneg range
  have hshl : shl_one bits = some (2 ^ bits.toNat) := by simp [shl_one, h₀]; omega
  obtain ⟨n, hn, hn0, hnle, hnexact⟩ := binary32_round_shifted bits h₀ h₁
  have hn62 : n ≤ 2 ^ 62 :=
    hnle.trans (pow_le_pow_right₀ (by norm_num) (by omega))
  have hc0 : (0 : ℚ) < float_0_001 := by norm_num [float_0_001]
  have hc126 : (1 : ℚ) / 2 ^ 126 ≤ float_0_001 := by norm_num [float_0_001]
  rcases binary32_span (clamp_zero range).min (clamp_zero range).max hcmin hmin0 hmax0 with
    hr | ⟨r₀, hr, hr0, hr128, hmr, hdr⟩
  · exact Or.inl (get_quant_param_binary32_eq_of_overflow range bits hshl hr hn)
  · right
    have hfloor : float_0_001 ≤ (if r₀ < float_0_001 then float_0_001 else r₀) ∧
        r₀ ≤ (if r₀ < float_0_001 then float_0_001 else r₀) ∧
        (if r₀ < float_0_001 then float_0_001 else r₀) < 2 ^ 128 := by
      split_ifs with h
      · exact ⟨le_rfl, h.le, lt_trans (by norm_num [float_0_001]) (by norm_num : (1 : ℚ) < 2 ^ 128)⟩
      · exact ⟨not_lt.mp h, le_rfl, hr128⟩
    obtain ⟨hcr, hr₀r, hr128'⟩ := hfloor
    have hspan : ((clamp_zero range).max - (clamp_zero range).min) * (1 - 1 / 2 ^ 24) ≤
        (if r₀ < float_0_001 then float_0_001 else r₀) := by
      rcases hdr with h | h
      · exact h.trans hr₀r
      · have hd0 : 0 ≤ (clamp_zero range).max - (clamp_zero range).min := by linarith
        have : ((clamp_zero range).max - (clamp_zero range).min) * (1 - 1 / 2 ^ 24) ≤
            (clamp_zero range).max - (clamp_zero range).min := by
          have : (0 : ℚ) ≤ ((clamp_zero range).max - (clamp_zero range).min) * (1 / 2 ^ 24) :=
            mul_nonneg hd0 (by norm_num)
          linarith
        linarith
    obtain ⟨sc, hs, hs0, hrs⟩ := binary32_scale n _ hn0 hn62 hcr hr128'
    have hm0 : 0 ≤ -(clamp_zero range).min := by linarith
    have hrs64 : (if r₀ < float_0_001 then float_0_001 else r₀) * sc ≤ 2 ^ 64 := by
      rcases hrs with h | h
      · have : n * (1 + 1 / 2 ^ 24) ≤ 2 ^ 62 * (1 + 1 / 2 ^ 24) :=
          mul_le_mul_of_nonneg_right hn62 (by norm_num)
        have h' : (2 : ℚ) ^ 62 * (1 + 1 / 2 ^ 24) ≤ 2 ^ 64 := by norm_num
        linarith
      · have h' : (2 : ℚ) ^ 62 + 1 / 2 ^ 22 ≤ 2 ^ 64 := by norm_num
        linarith
    have hms : -(clamp_zero range).min * sc ≤ 2 ^ 64 :=
      (mul_le_mul_of_nonneg_right (hmr.trans hr₀r) hs0).trans hrs64
    obtain ⟨ht, ht0⟩ := binary32_product _ _ hm0 hs0 hms
    refine ⟨_, n, sc, hcr, hmr.trans hr₀r, hspan, hn0, hnle, hnexact, hs0, hrs, ht0, ?_⟩
    have hn' : binary32_round ((((2 : Int) ^ bits.toNat - 1 : Int)) : ℚ) = some n := hn
    rw [get_quant_param_binary32_eq range bits hshl hr hn' hs ht]
    have hb0 : std_round (ieee_nearest 24 (-126) (-(clamp_zero range).min * sc)) ≥ 0 :=
      std_round_nonneg ht0
    rw [if_pos hb0]
    unfold to_int32
    by_cases hfit : std_round (ieee_nearest 24 (-126) (-(clamp_zero range).min * sc)) ≤ 2 ^ 31 - 1
    · have hlow : -2 ^ 31 ≤
          std_round (ieee_nearest 24 (-126) (-(clamp_zero range).min * sc)) :=
        le_trans (by norm_num) hb0
      rw [if_pos hfit, if_pos ⟨hlow, hfit⟩]
    · have hno : ¬(-2 ^ 31 ≤
            std_round (ieee_nearest 24 (-126) (-(clamp_zero range).min * sc)) ∧
          std_round (ieee_nearest 24 (-126) (-(clamp_zero range).min * sc)) ≤ 2 ^ 31 - 1) :=
        fun h => hfit h.2
      rw [if_neg hfit, if_neg hno]

theorem round_ties_even_add_half (j : Int) (hj : j % 2 = 0) :
    round_ties_even ((j : ℚ) + 1 / 2) = j := by
  have hf : ⌊(j : ℚ) + 1 / 2⌋ = j := by
    rw [Int.floor_eq_iff]
    constructor <;> linarith
  unfold round_ties_even
  rw [hf]
  have h₁ : ¬((j : ℚ) + 1 / 2 - j < 1 / 2) := by
    rw [add_sub_cancel_left]
    exact lt_irrefl _
  have h₂ : ¬((1 : ℚ) / 2 < (j : ℚ) + 1 / 2 - j) := by
    rw [add_sub_cancel_left]
    exact lt_irrefl _
  rw [if_neg h₁, if_neg h₂, if_pos hj]

/-- The midpoint above a power of two rounds down to it: the tie goes to the even significand. -/
theorem binary32_nearest_tie (k : Int) (hk : -126 ≤ k) :
    ieee_nearest 24 (-126) (2 ^ k * (1 + 1 / 2 ^ 24)) = 2 ^ k := by
  have hpos : (0 : ℚ) < 2 ^ k := zpow_pos (by norm_num) k
  have hx0 : (2 : ℚ) ^ k * (1 + 1 / 2 ^ 24) ≠ 0 := mul_ne_zero hpos.ne' (by norm_num)
  have habs : |(2 : ℚ) ^ k * (1 + 1 / 2 ^ 24)| = 2 ^ k * (1 + 1 / 2 ^ 24) :=
    abs_of_pos (mul_pos hpos (by norm_num))
  have hlog : Int.log 2 |(2 : ℚ) ^ k * (1 + 1 / 2 ^ 24)| = k := by
    have h₁ : k ≤ Int.log 2 |(2 : ℚ) ^ k * (1 + 1 / 2 ^ 24)| := by
      apply le_int_log_of_le hx0
      rw [habs]
      have : (2 : ℚ) ^ k * 1 ≤ 2 ^ k * (1 + 1 / 2 ^ 24) :=
        mul_le_mul_of_nonneg_left (by norm_num) hpos.le
      linarith
    have h₂ : Int.log 2 |(2 : ℚ) ^ k * (1 + 1 / 2 ^ 24)| < k + 1 := by
      apply int_log_lt_of_lt hx0
      rw [habs, zpow_add_one₀ (by norm_num)]
      exact mul_lt_mul_of_pos_left (by norm_num) hpos
    omega
  unfold ieee_nearest ieee_quantum
  rw [hlog, max_eq_left hk]
  have hq : (2 : ℚ) ^ (k - (((24 : Nat) : Int) - 1)) = 2 ^ k / 2 ^ 23 := by
    rw [zpow_sub₀ (by norm_num)]
    norm_num
  have hdiv : (2 : ℚ) ^ k * (1 + 1 / 2 ^ 24) / (2 ^ k / 2 ^ 23) =
      (((2 ^ 23 : Int)) : ℚ) + 1 / 2 := by
    field_simp
    norm_num
    ring
  rw [hq, hdiv, round_ties_even_add_half _ (by norm_num)]
  push_cast
  field_simp
  norm_num
  ring

/-- Rounding a product to binary32 before rounding it to an integer does not lower the integer,
as long as the halves are binary32 values. -/
theorem std_round_le_std_round_nearest {y : ℚ} (hy : 0 ≤ y) (hy22 : y ≤ 2 ^ 22) :
    std_round y ≤ std_round (ieee_nearest 24 (-126) y) := by
  have hnn := ieee_nearest_nonneg 24 (-126) hy
  rcases le_or_lt (std_round y) 0 with hk | hk
  · exact hk.trans (std_round_nonneg hnn)
  · have hle : ((std_round y : Int) : ℚ) ≤ y + 1 / 2 := std_round_le_add_half y
    have hk1 : (1 : ℚ) ≤ (std_round y : ℚ) := by exact_mod_cast hk
    have hkb : (std_round y : ℚ) ≤ 2 ^ 22 + 1 / 2 := by linarith
    have hkb' : std_round y ≤ 2 ^ 22 := by
      have : (std_round y : ℚ) < 2 ^ 22 + 1 := by linarith
      have : std_round y < 2 ^ 22 + 1 := by exact_mod_cast this
      omega
    have hfloat : is_binary32 ((std_round y : ℚ) - 1 / 2) := by
      have := is_binary32_of_small (2 * std_round y - 1) (-1)
        (by rw [abs_lt]; constructor <;> omega) (by norm_num) (by norm_num)
      have heq : ((2 * std_round y - 1 : Int) : ℚ) * 2 ^ (-1 : Int) =
          (std_round y : ℚ) - 1 / 2 := by
        push_cast
        norm_num
        ring
      rwa [heq] at this
    have hge := le_binary32_nearest_of_le hfloat (by linarith) (by linarith : _ ≤ y)
    have hmono := std_round_mono hge
    have heval : std_round ((std_round y : ℚ) - 1 / 2) = std_round y :=
      std_round_eq_of_nonneg (by linarith) (by linarith) (by linarith)
    rwa [heval] at hmono

/-- The binary32 `get_quant_param` on a range of floats for `1 ≤ bits ≤ 30`: it returns, the
bias is at most `2^bits`, at most `2^bits - 1` up to 22 bits, and the returned pair is `{0, 0}`
or the rounded product of finite locals within their error bounds. -/
theorem get_quant_param_binary32_bounds (range : value_range) (bits : Int)
    (hmin : is_binary32 range.min) (hmax : is_binary32 range.max)
    (h₁ : 1 ≤ bits) (h₂ : bits ≤ 30) :
    ∃ p, quantizer.get_quant_param_binary32 range bits = .ok p ∧ 0 ≤ p.bias ∧
      p.bias ≤ 2 ^ bits.toNat ∧ (bits ≤ 22 → p.bias ≤ 2 ^ bits.toNat - 1) ∧
      (p = ⟨0, 0⟩ ∨ ∃ r n : ℚ,
        -(clamp_zero range).min ≤ r ∧
        ((clamp_zero range).max - (clamp_zero range).min) * (1 - 1 / 2 ^ 24) ≤ r ∧
        n ≤ 2 ^ bits.toNat ∧ (bits ≤ 24 → n = 2 ^ bits.toNat - 1) ∧ 0 ≤ p.scale ∧
        (r * p.scale ≤ n * (1 + 1 / 2 ^ 24) ∨ r * p.scale ≤ n + 1 / 2 ^ 22) ∧
        p.bias = std_round (ieee_nearest 24 (-126) (-(clamp_zero range).min * p.scale))) := by
  obtain ⟨k, rfl⟩ := Int.eq_ofNat_of_zero_le (by omega : 0 ≤ bits)
  have hk1 : 1 ≤ k := by omega
  have hk30 : k ≤ 30 := by omega
  have hP2 : (2 : ℚ) ≤ 2 ^ k := by
    calc (2 : ℚ) = 2 ^ 1 := by norm_num
      _ ≤ 2 ^ k := pow_le_pow_right₀ (by norm_num) hk1
  have hP30 : (2 : Int) ^ k ≤ 2 ^ 30 := pow_le_pow_right₀ (by norm_num) hk30
  have hposI : (0 : Int) < 2 ^ k := by positivity
  rcases get_quant_param_binary32_analysis range k hmin hmax (by omega) (by omega) with
    hov | ⟨r, n, s, hcr, hmr, hspan, hn0, hnle, hnexact, hs0, hrs, ht0, hres⟩
  · refine ⟨⟨0, 0⟩, hov, le_rfl, ?_, fun _ => ?_, Or.inl rfl⟩
    · simp only [Int.toNat_ofNat]
      exact hposI.le
    · simp only [Int.toNat_ofNat]
      omega
  · simp only [Int.toNat_ofNat] at hnle hnexact hres ⊢
    have hm0 : 0 ≤ -(clamp_zero range).min := by linarith [clamp_zero_min_nonpos range]
    have hy0 : 0 ≤ -(clamp_zero range).min * s := mul_nonneg hm0 hs0
    have hyrs : -(clamp_zero range).min * s ≤ r * s := mul_le_mul_of_nonneg_right hmr hs0
    -- the product stays below the midpoint above `2^bits`
    have hyB : -(clamp_zero range).min * s ≤ 2 ^ (k : Int) * (1 + 1 / 2 ^ 24) := by
      rw [zpow_natCast]
      rcases hrs with h | h
      · have : n * (1 + 1 / 2 ^ 24) ≤ 2 ^ k * (1 + 1 / 2 ^ 24) :=
          mul_le_mul_of_nonneg_right hnle (by norm_num)
        linarith
      · by_cases hk24 : k ≤ 24
        · have := hnexact (by omega)
          have h' : (0 : ℚ) ≤ 2 ^ k * (1 / 2 ^ 24) := by positivity
          linarith
        · have hbig : (2 : ℚ) ^ 25 ≤ 2 ^ k := pow_le_pow_right₀ (by norm_num) (by omega)
          have h' : (1 : ℚ) / 2 ^ 22 ≤ 2 ^ k * (1 / 2 ^ 24) := by
            calc (1 : ℚ) / 2 ^ 22 ≤ 2 ^ 25 * (1 / 2 ^ 24) := by norm_num
              _ ≤ 2 ^ k * (1 / 2 ^ 24) := mul_le_mul_of_nonneg_right hbig (by norm_num)
          linarith
    have htB : ieee_nearest 24 (-126) (-(clamp_zero range).min * s) ≤ 2 ^ k := by
      have := ieee_nearest_mono 24 (by norm_num) (-126) hy0 hyB
      rwa [binary32_nearest_tie k (by omega), zpow_natCast] at this
    have hbias : std_round (ieee_nearest 24 (-126) (-(clamp_zero range).min * s)) ≤ 2 ^ k := by
      have := std_round_mono htB
      have hcast : ((2 : ℚ) ^ k) = (((2 ^ k : Int)) : ℚ) := by push_cast; rfl
      rwa [hcast, std_round_intCast] at this
    have hfit : std_round (ieee_nearest 24 (-126) (-(clamp_zero range).min * s)) ≤ 2 ^ 31 - 1 := by
      have : (2 : Int) ^ 30 ≤ 2 ^ 31 - 1 := by norm_num
      omega
    rw [if_pos hfit] at hres
    refine ⟨_, hres, std_round_nonneg ht0, hbias, fun h22 => ?_,
      Or.inr ⟨r, n, hmr, hspan, hnle, hnexact, hs0, hrs, rfl⟩⟩
    -- up to 22 bits the product stays below `2^bits - 1 + 1/4`
    have hk22 : k ≤ 22 := by omega
    have hP22 : (2 : ℚ) ^ k ≤ 2 ^ 22 := pow_le_pow_right₀ (by norm_num) hk22
    have hP22I : (2 : Int) ^ k ≤ 2 ^ 22 := pow_le_pow_right₀ (by norm_num) hk22
    have hnk := hnexact (by omega)
    have hyQ : -(clamp_zero range).min * s ≤ (((4 * (2 ^ k - 1) + 1 : Int)) : ℚ) * 2 ^ (-2 : Int) := by
      have heq : (((4 * (2 ^ k - 1) + 1 : Int)) : ℚ) * 2 ^ (-2 : Int) = 2 ^ k - 1 + 1 / 4 := by
        push_cast
        norm_num
        ring
      rw [heq]
      rcases hrs with h | h
      · rw [hnk] at h
        have : ((2 : ℚ) ^ k - 1) * (1 / 2 ^ 24) ≤ 1 / 4 := by
          have : ((2 : ℚ) ^ k - 1) * (1 / 2 ^ 24) ≤ 2 ^ 22 * (1 / 2 ^ 24) :=
            mul_le_mul_of_nonneg_right (by linarith) (by norm_num)
          have h4 : (2 : ℚ) ^ 22 * (1 / 2 ^ 24) = 1 / 4 := by norm_num
          linarith
        linarith
      · rw [hnk] at h
        have : (1 : ℚ) / 2 ^ 22 ≤ 1 / 4 := by norm_num
        linarith
    have hfloat : is_binary32 ((((4 * (2 ^ k - 1) + 1 : Int)) : ℚ) * 2 ^ (-2 : Int)) :=
      is_binary32_of_small _ (-2) (by rw [abs_lt]; constructor <;> omega) (by norm_num)
        (by norm_num)
    obtain ⟨_, _, htQ⟩ := binary32_round_of_le hy0 hyQ hfloat
    have hmono := std_round_mono htQ
    have heval : std_round ((((4 * (2 ^ k - 1) + 1 : Int)) : ℚ) * 2 ^ (-2 : Int)) = 2 ^ k - 1 := by
      apply std_round_eq_of_nonneg
      · have : (0 : ℚ) ≤ (((4 * (2 ^ k - 1) + 1 : Int)) : ℚ) := by
          exact_mod_cast (by omega : (0 : Int) ≤ 4 * (2 ^ k - 1) + 1)
        exact mul_nonneg this (by norm_num)
      · push_cast
        norm_num
        linarith
      · push_cast
        norm_num
        linarith
    rw [heval] at hmono
    exact hmono

/-- The binary32 computation on `{-43, 0}` at 23 bits: the quotient `(2^23 - 1) / 43` rounds up,
the product `43 * scale` rounds to `2^23 - 1/2`, and the bias comes out as `2^23`. -/
theorem get_quant_param_binary32_forty_three :
    quantizer.get_quant_param_binary32 ⟨-43, 0⟩ 23 = .ok ⟨8388608, 12485369 / 64⟩ := by
  have hc : clamp_zero ⟨-43, 0⟩ = ⟨-43, 0⟩ := by
    norm_num [clamp_zero]
  have hr : binary32_round 43 = some 43 := by
    simpa using binary32_round_of_is_binary32 (is_binary32_intCast (n := 43) (by norm_num))
  have hn : binary32_round 8388607 = some 8388607 := by
    simpa using binary32_round_of_is_binary32 (is_binary32_intCast (n := 8388607) (by norm_num))
  have hs : binary32_round (8388607 / 43) = some (12485369 / 64) := by
    have h := ieee_nearest_eq_of_bracket 24 (-126) (x := 8388607 / 43) 17 12485369
      (by norm_num [abs_of_pos]) (by norm_num [abs_of_pos]) (by norm_num)
      (by norm_num [abs_lt])
    rw [binary32_round_eq, h, if_pos (by norm_num [abs_of_pos])]
    norm_num
  have ht : binary32_round (536870867 / 64) = some (16777215 / 2) := by
    have h := ieee_nearest_eq_of_bracket 24 (-126) (x := 536870867 / 64) 22 16777215
      (by norm_num [abs_of_pos]) (by norm_num [abs_of_pos]) (by norm_num)
      (by norm_num [abs_lt])
    rw [binary32_round_eq, h, if_pos (by norm_num [abs_of_pos])]
    norm_num
  have hround : std_round (16777215 / 2) = 8388608 :=
    std_round_eq_of_nonneg (by norm_num) (by norm_num) (by norm_num)
  rw [get_quant_param_binary32_eq ⟨-43, 0⟩ 23 (p := 8388608) (r := 43) (n := 8388607)
    (s := 12485369 / 64) (t := 16777215 / 2) (by simp [shl_one])
    (by rw [hc]; norm_num [hr]) (by norm_num [hn])
    (by norm_num [float_0_001, hs]) (by rw [hc]; norm_num [ht])]
  rw [hround]
  norm_num [to_int32]

theorem is_binary32_one : is_binary32 1 := by
  simpa using is_binary32_intCast (n := 1) (by norm_num)

theorem is_binary32_neg_one : is_binary32 (-1) :=
  is_binary32_neg is_binary32_one

theorem binary32_round_nonneg {x y : ℚ} (hx : 0 ≤ x) (h : binary32_round x = some y) : 0 ≤ y := by
  rw [binary32_round_eq] at h
  split_ifs at h
  rw [Option.some.injEq] at h
  rw [← h]
  exact ieee_nearest_nonneg 24 (-126) hx

/-- The assertion `bias >= 0` of the binary32 `get_quant_param` holds for every input: after the
clamp `-min'` and the scale are non-negative, and so are the rounded product and the bias. -/
theorem get_quant_param_binary32_assertion (range : value_range) (bits : Int) :
    quantizer.get_quant_param_binary32 range bits ≠ .error .InvalidQuantizationState := by
  have hm0 : 0 ≤ -(clamp_zero range).min := by linarith [clamp_zero_min_nonpos range]
  have h001 : (0 : ℚ) < float_0_001 := by norm_num [float_0_001]
  unfold quantizer.get_quant_param_binary32
  simp only []
  split
  · simp
  · rename_i p hshl
    have hp : (0 : ℚ) ≤ ((p - 1 : Int) : ℚ) := by
      unfold shl_one at hshl
      split_ifs at hshl
      rw [Option.some.injEq] at hshl
      have : (0 : Int) < 2 ^ bits.toNat := by positivity
      exact_mod_cast (by omega : (0 : Int) ≤ p - 1)
    split
    · simp
    · rename_i n hn
      have hn0 := binary32_round_nonneg hp hn
      split
      · simp
      · rename_i scale hscale
        have hs0 : 0 ≤ scale := by
          split at hscale
          · rename_i x hx
            have hx0 : 0 ≤ x := by
              split at hx
              · split_ifs at hx with hlt
                · rw [Option.some.injEq] at hx
                  rw [← hx]
                  exact h001.le
                · rw [Option.some.injEq] at hx
                  rw [← hx]
                  linarith [not_lt.mp hlt]
              · cases hx
            exact binary32_round_nonneg (div_nonneg hn0 hx0) hscale
          · rw [Option.some.injEq] at hscale
            rw [← hscale]
        split
        · simp
        · rename_i product hproduct
          have ht0 := binary32_round_nonneg (mul_nonneg hm0 hs0) hproduct
          rw [if_pos (std_round_nonneg ht0)]
          split <;> simp

/-! ## Affine quantization parameters in binary32 -/

/-- C4 at its failing input: the assertion `bias >= 0` holds for every input, but on `{-1, 0}`
at 31 bits the integer `2^31 - 1` converts to the float `2^31`, scale and product are `2^31`, and
the rounded bias `2^31`, which passed the assertion, does not fit `int32_t`: the conversion on
the return line is undefined (it yields `-2^31` on the usual targets) and no non-negative bias is
returned. -/
theorem get_quant_param_bias_nonneg_failure :
    (∀ (range : value_range) (bits : Int),
      quantizer.get_quant_param_binary32 range bits ≠ .error .InvalidQuantizationState) ∧
    binary32_round 2147483647 = some 2147483648 ∧
    binary32_round (2147483648 / 1) = some 2147483648 ∧
    binary32_round (-(-1) * 2147483648) = some 2147483648 ∧
    std_round 2147483648 = 2147483648 ∧
    to_int32 2147483648 = none ∧
    quantizer.get_quant_param_binary32 ⟨-1, 0⟩ 31 = .error .UndefinedBehaviour := by
  have hbig := binary32_round_of_is_binary32 is_binary32_two_pow_31
  refine ⟨get_quant_param_binary32_assertion, binary32_round_two_pow_31_sub_one, ?_, ?_, ?_, ?_,
    get_quant_param_binary32_overflow⟩
  · norm_num [hbig]
  · norm_num [hbig]
  · simpa using std_round_intCast 2147483648
  · norm_num [to_int32]

/-- C20, as stated, fails in single precision: on `{-1, 0}` at 26 bits the integer `2^26 - 1`
converts to the float `2^26` and the bias is `2^26`; on `{-43, 0}` at 23 bits the rounded
quotient and product give the bias `2^23`. -/
theorem bias_upper_bound_counterexample :
    quantizer.get_quant_param_binary32 ⟨-1, 0⟩ 26 = .ok ⟨67108864, 67108864⟩ ∧
    ¬((67108864 : Int) ≤ 2 ^ 26 - 1) ∧
    quantizer.get_quant_param_binary32 ⟨-43, 0⟩ 23 = .ok ⟨8388608, 12485369 / 64⟩ ∧
    ¬((8388608 : Int) ≤ 2 ^ 23 - 1) :=
  ⟨get_quant_param_binary32_wide, by norm_num, get_quant_param_binary32_forty_three, by norm_num⟩

/-- C20, amended: for every range of binary32 values and every `1 ≤ bits ≤ 30` the binary32
`get_quant_param` returns a bias with `0 ≤ bias ≤ 2^bits`, so the conversion to `int32_t` does
not overflow, and `bias ≤ 2^bits - 1` for `bits ≤ 22`. -/
theorem bias_upper_bound (range : value_range) (bits : Int)
    (hmin : is_binary32 range.min) (hmax : is_binary32 range.max)
    (h₁ : 1 ≤ bits) (h₂ : bits ≤ 30) :
    ∃ p, quantizer.get_quant_param_binary32 range bits = .ok p ∧ 0 ≤ p.bias ∧
      p.bias ≤ 2 ^ bits.toNat ∧ p.bias ≤ 2 ^ 31 - 1 ∧ (bits ≤ 22 → p.bias ≤ 2 ^ bits.toNat - 1) := by
  obtain ⟨p, hp, h0, hle, h22, _⟩ := get_quant_param_binary32_bounds range bits hmin hmax h₁ h₂
  refine ⟨p, hp, h0, hle, ?_, h22⟩
  have hpow : (2 : Int) ^ bits.toNat ≤ 2 ^ 30 := pow_le_pow_right₀ (by norm_num) (by omega)
  have : (2 : Int) ^ 30 ≤ 2 ^ 31 - 1 := by norm_num
  omega

/-- Witness for C20 amended: the range `{-1, 1}` at 8 bits. -/
theorem bias_upper_bound_witness :
    ∃ p, quantizer.get_quant_param_binary32 ⟨-1, 1⟩ 8 = .ok p ∧ 0 ≤ p.bias ∧
      p.bias ≤ 2 ^ (8 : Int).toNat ∧ p.bias ≤ 2 ^ 31 - 1 ∧
      ((8 : Int) ≤ 22 → p.bias ≤ 2 ^ (8 : Int).toNat - 1) :=
  bias_upper_bound ⟨-1, 1⟩ 8 is_binary32_neg_one is_binary32_one (by norm_num) (by norm_num)

/-- The binary32 computation on `{-1, 2}` at 26 bits: `2^26 - 1` converts to the float `2^26`
and the quotient `2^26 / 3` rounds to 22369622. -/
theorem get_quant_param_binary32_thirds :
    quantizer.get_quant_param_binary32 ⟨-1, 2⟩ 26 = .ok ⟨22369622, 22369622⟩ := by
  have hc : clamp_zero ⟨-1, 2⟩ = ⟨-1, 2⟩ := by
    norm_num [clamp_zero]
  have hr : binary32_round 3 = some 3 := by
    simpa using binary32_round_of_is_binary32 (is_binary32_intCast (n := 3) (by norm_num))
  have hn : binary32_round 67108863 = some 67108864 := by
    have h := ieee_nearest_eq_of_bracket 24 (-126) (x := 67108863) 25 (2 ^ 24)
      (by norm_num [abs_of_pos]) (by norm_num [abs_of_pos]) (by norm_num)
      (by norm_num [abs_lt])
    rw [binary32_round_eq, h, if_pos (by norm_num [abs_of_pos])]
    norm_num
  have hs : binary32_round (67108864 / 3) = some 22369622 := by
    have h := ieee_nearest_eq_of_bracket 24 (-126) (x := 67108864 / 3) 24 11184811
      (by norm_num [abs_of_pos]) (by norm_num [abs_of_pos]) (by norm_num)
      (by norm_num [abs_lt])
    rw [binary32_round_eq, h, if_pos (by norm_num [abs_of_pos])]
    norm_num
  have ht : binary32_round 22369622 = some 22369622 :=
    binary32_round_of_is_binary32
      ⟨11184811, 1, by norm_num, by norm_num, by norm_num, by norm_num [abs_of_pos]⟩
  have hround : std_round 22369622 = 22369622 := by
    simpa using std_round_intCast 22369622
  rw [get_quant_param_binary32_eq ⟨-1, 2⟩ 26 (p := 67108864) (r := 3) (n := 67108864)
    (s := 22369622) (t := 22369622) (by simp [shl_one]) (by rw [hc]; norm_num [hr])
    (by norm_num [hn]) (by norm_num [float_0_001, hs]) (by rw [hc]; norm_num [ht])]
  rw [hround]
  norm_num [to_int32]

/-- C5, as stated, fails: for the range `{-1, 1}` at 8 bits the parameters are bias 128 and scale
127.5, and the value `x = 1` of the clamped range quantizes to `128 + 128 = 256 > 2^8 - 1`; in
single precision wide bit-widths go further, `{-1, 2}` at 26 bits has bias and scale 22369622 and
`x = 2` quantizes to `2^26 + 2`. -/
theorem quantized_in_range_counterexample :
    quantizer.get_quant_param_binary32 ⟨-1, 1⟩ 8 = .ok ⟨128, 255 / 2⟩ ∧
    (clamp_zero ⟨-1, 1⟩).min ≤ 1 ∧ 1 ≤ (clamp_zero ⟨-1, 1⟩).max ∧
    std_round (1 * (255 / 2)) + 128 = 256 ∧ ¬((256 : Int) ≤ 2 ^ 8 - 1) ∧
    quantizer.get_quant_param_binary32 ⟨-1, 2⟩ 26 = .ok ⟨22369622, 22369622⟩ ∧
    (clamp_zero ⟨-1, 2⟩).min ≤ 2 ∧ 2 ≤ (clamp_zero ⟨-1, 2⟩).max ∧
    std_round (2 * 22369622) + 22369622 = 67108866 ∧ ¬((67108866 : Int) ≤ 2 ^ 26) := by
  refine ⟨get_quant_param_binary32_unit_range, ?_, ?_, ?_, by norm_num,
    get_quant_param_binary32_thirds, ?_, ?_, ?_, by norm_num⟩
  · norm_num [clamp_zero]
  · norm_num [clamp_zero]
  · rw [one_mul, std_round_half_255]
    norm_num
  · norm_num [clamp_zero]
  · norm_num [clamp_zero]
  · have h : std_round (2 * 22369622) = 44739244 := by
      have := std_round_intCast 44739244
      norm_num at this ⊢
      exact this
    rw [h]
    norm_num

/-- C5, amended: for every range of binary32 values and every `1 ≤ bits ≤ 22` the binary32
`get_quant_param` returns `{bias, scale}`, and every real `x` of the clamped range satisfies
`0 ≤ round(x * scale) + bias ≤ 2^bits`. -/
theorem quantized_in_range (range : value_range) (bits : Int) (x : ℚ)
    (hmin : is_binary32 range.min) (hmax : is_binary32 range.max)
    (h₁ : 1 ≤ bits) (h₂ : bits ≤ 22)
    (hlo : (clamp_zero range).min ≤ x) (hhi : x ≤ (clamp_zero range).max) :
    ∃ p, quantizer.get_quant_param_binary32 range bits = .ok p ∧
      0 ≤ std_round (x * p.scale) + p.bias ∧
      std_round (x * p.scale) + p.bias ≤ 2 ^ bits.toNat := by
  obtain ⟨p, hp, h0, hle, h22, hcase⟩ :=
    get_quant_param_binary32_bounds range bits hmin hmax h₁ (by omega)
  refine ⟨p, hp, ?_⟩
  obtain ⟨k, rfl⟩ := Int.eq_ofNat_of_zero_le (by omega : 0 ≤ bits)
  simp only [Int.toNat_ofNat] at hle h22 hcase ⊢
  have hP22 : (2 : ℚ) ^ k ≤ 2 ^ 22 := pow_le_pow_right₀ (by norm_num) (by omega)
  have hP1 : (1 : ℚ) ≤ 2 ^ k := one_le_pow₀ (by norm_num)
  rcases hcase with rfl | ⟨r, n, hmr, hspan, hnle, hnexact, hs0, hrs, hbias⟩
  · simp only [mul_zero, std_round_zero, add_zero]
    exact ⟨le_rfl, by positivity⟩
  · have hn := hnexact (by omega)
    have hm0 : 0 ≤ -(clamp_zero range).min := by linarith [clamp_zero_min_nonpos range]
    have hB0 : 0 ≤ -(clamp_zero range).min * p.scale := mul_nonneg hm0 hs0
    have hBR : -(clamp_zero range).min * p.scale ≤ r * p.scale :=
      mul_le_mul_of_nonneg_right hmr hs0
    have hAR : ((clamp_zero range).max - (clamp_zero range).min) * p.scale * (1 - 1 / 2 ^ 24) ≤
        r * p.scale := by
      have := mul_le_mul_of_nonneg_right hspan hs0
      linarith
    have hR : r * p.scale ≤ 2 ^ k - 1 + 1 / 4 - 1 / 2 ^ 24 := by
      rcases hrs with h | h
      · rw [hn] at h
        have : ((2 : ℚ) ^ k - 1) * (1 / 2 ^ 24) ≤ (2 ^ 22 - 1) * (1 / 2 ^ 24) :=
          mul_le_mul_of_nonneg_right (by linarith) (by norm_num)
        have h4 : ((2 : ℚ) ^ 22 - 1) * (1 / 2 ^ 24) = 1 / 4 - 1 / 2 ^ 24 := by norm_num
        linarith
      · rw [hn] at h
        have : (1 : ℚ) / 2 ^ 22 ≤ 1 / 4 - 1 / 2 ^ 24 := by norm_num
        linarith
    constructor
    · -- the code of the lower end is not below zero
      have h₁ : std_round (-(-(clamp_zero range).min * p.scale)) ≤ std_round (x * p.scale) := by
        apply std_round_mono
        have := mul_le_mul_of_nonneg_right hlo hs0
        linarith
      rw [std_round_neg] at h₁
      have h₂ := std_round_le_std_round_nearest hB0 (by linarith)
      rw [← hbias] at h₂
      omega
    · -- the two roundings add at most one to a real below `2^bits`
      have hx : x * p.scale ≤ ((clamp_zero range).max - (clamp_zero range).min) * p.scale -
          -(clamp_zero range).min * p.scale := by
        have := mul_le_mul_of_nonneg_right hhi hs0
        linarith
      have ht : ieee_nearest 24 (-126) (-(clamp_zero range).min * p.scale) ≤
          -(clamp_zero range).min * p.scale * (1 + 1 / 2 ^ 24) + 1 / 2 ^ 150 := by
        rcases binary32_nearest_le _ hB0 with h | h
        · linarith
        · have : (0 : ℚ) ≤ -(clamp_zero range).min * p.scale * (1 / 2 ^ 24) :=
            mul_nonneg hB0 (by norm_num)
          linarith
      have ha := std_round_le_add_half (x * p.scale)
      have hb := std_round_le_add_half
        (ieee_nearest 24 (-126) (-(clamp_zero range).min * p.scale))
      rw [← hbias] at hb
      have hsum : ((std_round (x * p.scale) + p.bias : Int) : ℚ) < ((2 ^ k + 1 : Int) : ℚ) := by
        push_cast
        generalize ((clamp_zero range).max - (clamp_zero range).min) * p.scale = A at *
        generalize -(clamp_zero range).min * p.scale = B at *
        generalize r * p.scale = R at *
        generalize ieee_nearest 24 (-126) B = t at *
        have hsmall : (1 : ℚ) / 2 ^ 150 ≤ 1 / 2 ^ 24 := by norm_num
        norm_num at hAR hR ht hsmall ⊢
        linarith
      have := Int.cast_lt.mp hsum
      omega

/-- Witness for C5 amended: the range `{-1, 1}` at 8 bits and the value `x = 1`. -/
theorem quantized_in_range_witness :
    ∃ p, quantizer.get_quant_param_binary32 ⟨-1, 1⟩ 8 = .ok p ∧
      0 ≤ std_round (1 * p.scale) + p.bias ∧
      std_round (1 * p.scale) + p.bias ≤ 2 ^ (8 : Int).toNat :=
  quantized_in_range ⟨-1, 1⟩ 8 1 is_binary32_neg_one is_binary32_one (by norm_num)
    (by norm_num) (by norm_num [clamp_zero]) (by norm_num [clamp_zero])

/-! ## `get_fixed_mul` in binary32 -/

/-- The call `std::pow(2, k)` is exact on the exponents of the doubles. -/
theorem std_pow2_eq {k : Int} (h₀ : -1074 ≤ k) (h₁ : k ≤ 1023) : std_pow2 k = some (2 ^ k) := by
  have h := ieee_nearest_of_representable 53 (-1022) 1 k (by norm_num) (by norm_num; omega)
  simp only [Int.cast_one, one_mul] at h
  have hmag : |(2 : ℚ) ^ k| < 2 ^ 1024 := by
    rw [abs_of_pos (two_zpow_pos k)]
    calc (2 : ℚ) ^ k ≤ 2 ^ (1023 : Int) := zpow_le_zpow_right₀ (by norm_num) h₁
      _ < 2 ^ 1024 := by norm_num
  unfold std_pow2
  rw [binary64_round_eq, h, if_pos hmag]

/-- Scaling a binary32 value up by a power of two gives a binary32 value short of overflow. -/
theorem is_binary32_mul_two_zpow {x : ℚ} (hx : is_binary32 x) {s : Int} (hs : 0 ≤ s)
    (hmag : |x * 2 ^ s| < 2 ^ 128) : is_binary32 (x * 2 ^ s) := by
  obtain ⟨n, k, rfl, hn, hk, _⟩ := hx
  refine ⟨n, k + s, ?_, hn, by omega, hmag⟩
  rw [zpow_add₀ (by norm_num)]
  ring

/-- The float `mul * std::pow(2, k)` is the exact product when that is a binary32 value. -/
theorem float_mul_pow2_eq {mul : ℚ} {k : Int} (h₀ : -1074 ≤ k) (h₁ : k ≤ 1023)
    (h : is_binary32 (mul * 2 ^ k)) : float_mul_pow2 mul k = some (mul * 2 ^ k) := by
  unfold float_mul_pow2
  simp only [std_pow2_eq h₀ h₁, binary64_round_of_is_binary32 h, binary32_round_of_is_binary32 h]

theorem get_fixed_mul_pair_binary32_zero (max_bits : Int) (max_shift : Nat) (is_signed : Bool) :
    get_fixed_mul_pair_binary32 0 max_bits max_shift is_signed = (some 0, 0) := by
  simp [get_fixed_mul_pair_binary32]

/-- The shift of the binary32 computation is the shift of the exact one. -/
theorem get_fixed_mul_pair_binary32_shift (value : ℚ) (max_bits : Int) (max_shift : Nat)
    (is_signed : Bool) :
    (get_fixed_mul_pair_binary32 value max_bits max_shift is_signed).2 =
      (get_fixed_mul_pair value max_bits max_shift is_signed).2 := by
  unfold get_fixed_mul_pair_binary32 get_fixed_mul_pair
  split_ifs <;> rfl

/-- In both non-zero branches the multiplier is the float product of the mantissa and
`std::pow(2, shift + e)`. -/
theorem get_fixed_mul_pair_binary32_mul {value : ℚ} (hv : value ≠ 0) (max_bits : Int)
    (max_shift : Nat) (is_signed : Bool) :
    (get_fixed_mul_pair_binary32 value max_bits max_shift is_signed).1 =
      float_mul_pow2 (frexp value).1
        ((get_fixed_mul_pair value max_bits max_shift is_signed).2 + (frexp value).2) := by
  unfold get_fixed_mul_pair_binary32 get_fixed_mul_pair
  by_cases h : |value| > 1
  · simp only [h, if_true]
  · simp only [h, hv, if_false, sub_add_cancel]

/-- The exponent of a non-zero binary32 value lies in `-148..128`. -/
theorem frexp_exp_of_is_binary32 {value : ℚ} (hvalue : is_binary32 value) (hv : value ≠ 0) :
    -148 ≤ (frexp value).2 ∧ (frexp value).2 ≤ 128 := by
  obtain ⟨hlo, hhi⟩ := frexp_exp_bounds hv
  obtain ⟨n, k, hnk, hn, hk, hmag⟩ := hvalue
  have hn0 : n ≠ 0 := by
    intro h
    rw [h] at hnk
    simp at hnk
    exact hv hnk
  have hn1 : (1 : ℚ) ≤ |(n : ℚ)| := by
    have : (1 : Int) ≤ |n| := Int.one_le_abs hn0
    exact_mod_cast this
  have hsmall : (2 : ℚ) ^ (-149 : Int) ≤ |value| := by
    rw [hnk, abs_mul, abs_of_pos (two_zpow_pos k)]
    calc (2 : ℚ) ^ (-149 : Int) ≤ 2 ^ k := zpow_le_zpow_right₀ (by norm_num) hk
      _ = 1 * 2 ^ k := (one_mul _).symm
      _ ≤ |(n : ℚ)| * 2 ^ k := mul_le_mul_of_nonneg_right hn1 (two_zpow_pos k).le
  constructor
  · have h := lt_of_le_of_lt hsmall hhi
    have := (zpow_lt_zpow_iff_right₀ (by norm_num : (1 : ℚ) < 2)).mp h
    omega
  · have h128 : (2 : ℚ) ^ (128 : Int) = 2 ^ 128 := by norm_num
    have h := lt_of_le_of_lt hlo hmag
    rw [← h128] at h
    have := (zpow_lt_zpow_iff_right₀ (by norm_num : (1 : ℚ) < 2)).mp h
    omega

/-- On the representable domain with `bits ≤ 128` the binary32 multiplier is the exact scaled
value. -/
theorem get_fixed_mul_pair_binary32_exact (value : ℚ) (max_bits : Int) (max_shift : Nat)
    (is_signed : Bool) (hvalue : is_binary32 value)
    (hhi : fixed_mul_bits max_bits is_signed ≤ 128)
    (hdom : |value| < 2 ^ fixed_mul_bits max_bits is_signed) :
    (get_fixed_mul_pair_binary32 value max_bits max_shift is_signed).1 =
      some (value * 2 ^ (get_fixed_mul_pair value max_bits max_shift is_signed).2) ∧
    is_binary32 (value * 2 ^ (get_fixed_mul_pair value max_bits max_shift is_signed).2) := by
  by_cases hv : value = 0
  · subst hv
    rw [get_fixed_mul_pair_binary32_zero]
    simp only [zero_mul]
    exact ⟨trivial, is_binary32_zero⟩
  · have hnn := (get_fixed_mul_pair_shift_nonneg_iff value max_bits max_shift is_signed).mpr hdom
    have hle := get_fixed_mul_pair_shift_le value max_bits max_shift is_signed
    have hlt := get_fixed_mul_pair_mul_lt value max_bits max_shift is_signed
    rw [get_fixed_mul_pair_mul] at hlt
    obtain ⟨he₀, he₁⟩ := frexp_exp_of_is_binary32 hvalue hv
    have hmag : |value * 2 ^ (get_fixed_mul_pair value max_bits max_shift is_signed).2| <
        2 ^ 128 := by
      have h128 : (2 : ℚ) ^ (128 : Int) = 2 ^ 128 := by norm_num
      rw [← h128]
      exact lt_of_lt_of_le hlt (zpow_le_zpow_right₀ (by norm_num) hhi)
    have hfloat := is_binary32_mul_two_zpow hvalue hnn hmag
    have hprod : (frexp value).1 *
        2 ^ ((get_fixed_mul_pair value max_bits max_shift is_signed).2 + (frexp value).2) =
        value * 2 ^ (get_fixed_mul_pair value max_bits max_shift is_signed).2 := by
      have h := frexp_mul_pow value
      rw [zpow_add₀ (by norm_num)]
      calc (frexp value).1 * (2 ^ (get_fixed_mul_pair value max_bits max_shift is_signed).2 *
            2 ^ (frexp value).2)
          = (frexp value).1 * 2 ^ (frexp value).2 *
            2 ^ (get_fixed_mul_pair value max_bits max_shift is_signed).2 := by ring
        _ = value * 2 ^ (get_fixed_mul_pair value max_bits max_shift is_signed).2 := by rw [h]
    refine ⟨?_, hfloat⟩
    rw [get_fixed_mul_pair_binary32_mul hv, ← hprod]
    have hsum : (get_fixed_mul_pair value max_bits max_shift is_signed).2 + (frexp value).2 ≤
        fixed_mul_bits max_bits is_signed := by
      have h := get_fixed_mul_pair_shift hv max_bits max_shift is_signed
      have := min_le_right (max_shift : Int) (fixed_mul_bits max_bits is_signed - (frexp value).2)
      omega
    apply float_mul_pow2_eq
    · omega
    · omega
    · rw [hprod]
      exact hfloat

/-- The reconstruction check passes on an exact scaled value. -/
theorem reconstructs_exact {value : ℚ} (hvalue : is_binary32 value) {shift : Int}
    (h₀ : 0 ≤ shift) (h₁ : shift ≤ 1074) : reconstructs value (value * 2 ^ shift) shift = true := by
  have hprod : value * 2 ^ shift * 2 ^ (-shift) = value := by
    rw [mul_assoc, ← zpow_add₀ (by norm_num)]
    simp
  have hzero : binary64_round 0 = some 0 := binary64_round_of_is_binary32 is_binary32_zero
  unfold reconstructs
  simp only [std_pow2_eq (by omega : -1074 ≤ -shift) (by omega : -shift ≤ 1023), hprod,
    binary64_round_of_is_binary32 hvalue, sub_self, hzero, abs_zero, decide_eq_true_eq]
  norm_num [float_epsilon]

/-- The result of the binary32 `get_fixed_mul` on the representable domain of a binary32 value
when `bits` lies in `-1074..128`: the exact scaled value and the narrowed shift. -/
theorem get_fixed_mul_binary32_eq (value : ℚ) (max_bits : Int) (max_shift : Nat)
    (is_signed : Bool) (hvalue : is_binary32 value) (hsign : is_signed = true → 0 ≤ value)
    (hlo : -1074 ≤ fixed_mul_bits max_bits is_signed)
    (hhi : fixed_mul_bits max_bits is_signed ≤ 128)
    (hdom : |value| < 2 ^ fixed_mul_bits max_bits is_signed) :
    quantizer.get_fixed_mul_binary32 value max_bits max_shift is_signed =
      .ok ⟨value * 2 ^ (get_fixed_mul_pair value max_bits max_shift is_signed).2,
        int8_cast (get_fixed_mul_pair value max_bits max_shift is_signed).2⟩ := by
  have hpre : is_signed = false ∨ value ≥ 0 := by
    cases is_signed
    · exact Or.inl rfl
    · exact Or.inr (hsign rfl)
  obtain ⟨hmul, _⟩ := get_fixed_mul_pair_binary32_exact value max_bits max_shift is_signed hvalue
    hhi hdom
  have hs := get_fixed_mul_pair_binary32_shift value max_bits max_shift is_signed
  have hnn := (get_fixed_mul_pair_shift_nonneg_iff value max_bits max_shift is_signed).mpr hdom
  have hle := get_fixed_mul_pair_shift_le value max_bits max_shift is_signed
  have hlt := get_fixed_mul_pair_mul_lt value max_bits max_shift is_signed
  rw [get_fixed_mul_pair_mul] at hlt
  have hbelow : mul_below_pow2
      (some (value * 2 ^ (get_fixed_mul_pair value max_bits max_shift is_signed).2))
      (fixed_mul_bits max_bits is_signed) = true := by
    unfold mul_below_pow2
    simp only [std_pow2_eq hlo (by omega : fixed_mul_bits max_bits is_signed ≤ 1023),
      decide_eq_true_eq]
    exact hlt
  have hsmall : (get_fixed_mul_pair value max_bits max_shift is_signed).2 ≤ 1074 := by
    by_cases hv : value = 0
    · rw [hv, get_fixed_mul_pair_zero]
      norm_num
    · obtain ⟨he₀, _⟩ := frexp_exp_of_is_binary32 hvalue hv
      have h := get_fixed_mul_pair_shift hv max_bits max_shift is_signed
      have := min_le_right (max_shift : Int) (fixed_mul_bits max_bits is_signed - (frexp value).2)
      omega
  have hrec := reconstructs_exact hvalue hnn hsmall
  unfold quantizer.get_fixed_mul_binary32
  simp only [hpre, hmul, hs, hbelow, hnn, hle, hrec, ge_iff_le, and_self, not_true_eq_false,
    if_false]

/-- Outside the representable domain the binary32 `get_fixed_mul` fails one of its two bound
assertions. -/
theorem get_fixed_mul_binary32_outside (value : ℚ) (max_bits : Int) (max_shift : Nat)
    (is_signed : Bool) (hsign : is_signed = true → 0 ≤ value)
    (hdom : ¬|value| < 2 ^ fixed_mul_bits max_bits is_signed) :
    quantizer.get_fixed_mul_binary32 value max_bits max_shift is_signed =
        .error .MultiplierOutOfRange ∨
      quantizer.get_fixed_mul_binary32 value max_bits max_shift is_signed =
        .error .ShiftOutOfRange := by
  have hpre : is_signed = false ∨ value ≥ 0 := by
    cases is_signed
    · exact Or.inl rfl
    · exact Or.inr (hsign rfl)
  have hs := get_fixed_mul_pair_binary32_shift value max_bits max_shift is_signed
  have hnn : ¬(0 ≤ (get_fixed_mul_pair value max_bits max_shift is_signed).2) := fun h =>
    hdom ((get_fixed_mul_pair_shift_nonneg_iff value max_bits max_shift is_signed).mp h)
  unfold quantizer.get_fixed_mul_binary32
  simp only [hpre, hs, hnn, ge_iff_le, false_and, not_true_eq_false, not_false_eq_true, if_false,
    if_true]
  rcases Bool.eq_false_or_eq_true (mul_below_pow2
      (get_fixed_mul_pair_binary32 value max_bits max_shift is_signed).1
      (fixed_mul_bits max_bits is_signed)) with hb | hb
  · right
    simp only [hb, not_true_eq_false, if_false]
  · left
    simp only [hb, Bool.false_eq_true, not_false_eq_true, if_true]

theorem frexp_two_pow_100 : frexp (2 ^ 100) = (1 / 2, 101) :=
  frexp_unique (by norm_num) (by norm_num [abs_of_pos]) (by norm_num [abs_of_pos])

theorem binary32_round_two_zpow_overflow {k : Int} (hk : 128 ≤ k) :
    binary32_round (2 ^ k) = none := by
  have h := ieee_nearest_of_representable 24 (-126) 1 k (by norm_num) (by norm_num; omega)
  simp only [Int.cast_one, one_mul] at h
  have h128 : (2 : ℚ) ^ (128 : Int) = 2 ^ 128 := by norm_num
  have hmag : ¬(|(2 : ℚ) ^ k| < 2 ^ 128) := by
    rw [abs_of_pos (two_zpow_pos k), not_lt, ← h128]
    exact zpow_le_zpow_right₀ (by norm_num) hk
  rw [binary32_round_eq, h, if_neg hmag]

theorem mul_below_pow2_none (bits : Int) : mul_below_pow2 none bits = false := by
  unfold mul_below_pow2
  cases std_pow2 bits <;> rfl

theorem float_mul_pow2_of_eq {mul p d : ℚ} {k : Int} (hp : std_pow2 k = some p)
    (hd : binary64_round (mul * p) = some d) : float_mul_pow2 mul k = binary32_round d := by
  unfold float_mul_pow2
  rw [hp]
  simp only
  rw [hd]

/-- The float product `0.5 * std::pow(2, 200)`: the double `2^199` is finite and its conversion to
`float` overflows. -/
theorem float_mul_pow2_overflow : float_mul_pow2 (1 / 2) 200 = none := by
  have hx : (1 / 2 : ℚ) * 2 ^ (200 : Int) = 2 ^ (199 : Int) := by
    have h200 : (200 : Int) = 199 + 1 := by norm_num
    have h : (2 : ℚ) ^ (200 : Int) = 2 ^ (199 : Int) * 2 := by
      rw [h200, zpow_add_one₀ (by norm_num)]
    rw [h]
    generalize (2 : ℚ) ^ (199 : Int) = x
    ring
  have hp : std_pow2 200 = some (2 ^ (200 : Int)) :=
    std_pow2_eq (by norm_num) (by norm_num)
  have hd : binary64_round ((1 / 2 : ℚ) * 2 ^ (200 : Int)) = some (2 ^ (199 : Int)) := by
    rw [hx]
    exact std_pow2_eq (by norm_num) (by norm_num)
  rw [float_mul_pow2_of_eq hp hd]
  exact binary32_round_two_zpow_overflow (by norm_num)

theorem get_fixed_mul_pair_binary32_huge :
    get_fixed_mul_pair_binary32 (2 ^ 100) 200 100 false = (none, 99) := by
  have hs : (get_fixed_mul_pair (2 ^ 100) 200 100 false).2 = 99 := by
    rw [get_fixed_mul_pair_shift (by norm_num), frexp_two_pow_100]
    norm_num [fixed_mul_bits]
  refine Prod.ext ?_ ?_
  · rw [get_fixed_mul_pair_binary32_mul (by norm_num), hs, frexp_two_pow_100]
    exact float_mul_pow2_overflow
  · rw [get_fixed_mul_pair_binary32_shift, hs]

theorem get_fixed_mul_binary32_huge :
    quantizer.get_fixed_mul_binary32 (2 ^ 100) 200 100 false = .error .MultiplierOutOfRange := by
  have hpre : (false = false ∨ (2 : ℚ) ^ 100 ≥ 0) := Or.inl rfl
  unfold quantizer.get_fixed_mul_binary32
  rw [if_neg (not_not.mpr hpre)]
  simp only [get_fixed_mul_pair_binary32_huge, mul_below_pow2_none, Bool.false_eq_true,
    not_false_eq_true, if_true]

theorem is_binary32_two_pow_neg_100 : is_binary32 (1 / 2 ^ 100) :=
  ⟨1, -100, by norm_num, by norm_num, by norm_num, by norm_num [abs_of_pos]⟩

theorem get_fixed_mul_binary32_tiny_32 :
    quantizer.get_fixed_mul_binary32 (1 / 2 ^ 100) 32 255 false = .ok ⟨2 ^ 31, -125⟩ := by
  rw [get_fixed_mul_binary32_eq (1 / 2 ^ 100) 32 255 false is_binary32_two_pow_neg_100 (by simp)
    (by norm_num [fixed_mul_bits]) (by norm_num [fixed_mul_bits])
    (by norm_num [fixed_mul_bits, abs_of_pos]), get_fixed_mul_pair_tiny_32]
  norm_num [int8_cast]

theorem is_binary32_three : is_binary32 3 := by
  simpa using is_binary32_intCast (n := 3) (by norm_num)

theorem get_fixed_mul_pair_binary32_tiny_32 :
    get_fixed_mul_pair_binary32 (1 / 2 ^ 100) 32 255 false = (some (2 ^ 31), 131) := by
  obtain ⟨hmul, _⟩ := get_fixed_mul_pair_binary32_exact (1 / 2 ^ 100) 32 255 false
    is_binary32_two_pow_neg_100 (by norm_num [fixed_mul_bits])
    (by norm_num [fixed_mul_bits, abs_of_pos])
  have hs := get_fixed_mul_pair_binary32_shift (1 / 2 ^ 100) 32 255 false
  rw [get_fixed_mul_pair_tiny_32] at hmul hs
  refine Prod.ext ?_ hs
  rw [hmul]
  norm_num

/-! ## Fixed-point multipliers in binary32 -/

/-- C6, as stated, fails in single precision: `value = 2^100` with 200 unsigned bits and
`max_shift = 100` lies in the representable domain `|value| < 2^200`, the shift is 99, and the
multiplier `2^199` overflows the float `mul` to infinity, so the multiplier bound does not hold
and the first bound assertion fails. -/
theorem fixed_mul_bounds_iff_counterexample :
    |(2 : ℚ) ^ 100| < 2 ^ (if false then (200 : Int) - 1 else 200) ∧
    get_fixed_mul_pair_binary32 (2 ^ 100) 200 100 false = (none, 99) ∧
    ¬(∃ m, (get_fixed_mul_pair_binary32 (2 ^ 100) 200 100 false).1 = some m ∧
      |m| < 2 ^ (if false then (200 : Int) - 1 else 200)) ∧
    quantizer.get_fixed_mul_binary32 (2 ^ 100) 200 100 false = .error .MultiplierOutOfRange := by
  refine ⟨?_, get_fixed_mul_pair_binary32_huge, ?_, get_fixed_mul_binary32_huge⟩
  · norm_num [abs_of_pos]
  · rw [get_fixed_mul_pair_binary32_huge]
    rintro ⟨m, hm, _⟩
    cases hm

/-- C6, amended: with `bits = max_bits - 1` if signed and `max_bits` otherwise, for every
binary32 `value` (`value ≥ 0` when signed), every `max_shift ≤ 127` and every `max_bits` with
`-1074 ≤ bits ≤ 128`, the pair computed by the binary32 `get_fixed_mul` has a finite multiplier
with `|mul| < 2^bits` and `0 ≤ shift ≤ max_shift` if and only if `|value| < 2^bits`; on that
domain the multiplier is `value * 2^shift`, no assertion fails and the call returns the pair;
outside it one of the two bound assertions fails. -/
theorem fixed_mul_bounds_iff (value : ℚ) (max_bits : Int) (max_shift : Nat) (is_signed : Bool)
    (hvalue : is_binary32 value) (hsign : is_signed = true → 0 ≤ value)
    (hshift : max_shift ≤ 127)
    (hlo : -1074 ≤ (if is_signed then max_bits - 1 else max_bits))
    (hhi : (if is_signed then max_bits - 1 else max_bits) ≤ 128) :
    (((∃ m, (get_fixed_mul_pair_binary32 value max_bits max_shift is_signed).1 = some m ∧
          |m| < 2 ^ (if is_signed then max_bits - 1 else max_bits)) ∧
        0 ≤ (get_fixed_mul_pair_binary32 value max_bits max_shift is_signed).2 ∧
        (get_fixed_mul_pair_binary32 value max_bits max_shift is_signed).2 ≤ max_shift) ↔
      |value| < 2 ^ (if is_signed then max_bits - 1 else max_bits)) ∧
    (|value| < 2 ^ (if is_signed then max_bits - 1 else max_bits) →
      (get_fixed_mul_pair_binary32 value max_bits max_shift is_signed).1 =
          some (value * 2 ^ (get_fixed_mul_pair_binary32 value max_bits max_shift is_signed).2) ∧
        quantizer.get_fixed_mul_binary32 value max_bits max_shift is_signed =
          .ok ⟨value * 2 ^ (get_fixed_mul_pair_binary32 value max_bits max_shift is_signed).2,
            (get_fixed_mul_pair_binary32 value max_bits max_shift is_signed).2⟩) ∧
    (¬|value| < 2 ^ (if is_signed then max_bits - 1 else max_bits) →
      quantizer.get_fixed_mul_binary32 value max_bits max_shift is_signed =
          .error .MultiplierOutOfRange ∨
        quantizer.get_fixed_mul_binary32 value max_bits max_shift is_signed =
          .error .ShiftOutOfRange) := by
  have hbits : (if is_signed then max_bits - 1 else max_bits) =
      fixed_mul_bits max_bits is_signed := rfl
  rw [hbits] at hlo hhi ⊢
  have hs := get_fixed_mul_pair_binary32_shift value max_bits max_shift is_signed
  have hle := get_fixed_mul_pair_shift_le value max_bits max_shift is_signed
  have hnn := get_fixed_mul_pair_shift_nonneg_iff value max_bits max_shift is_signed
  have hlt := get_fixed_mul_pair_mul_lt value max_bits max_shift is_signed
  rw [get_fixed_mul_pair_mul] at hlt
  rw [hs]
  refine ⟨⟨fun h => hnn.mp h.2.1, fun h => ?_⟩, fun h => ?_, fun h => ?_⟩
  · obtain ⟨hmul, _⟩ := get_fixed_mul_pair_binary32_exact value max_bits max_shift is_signed
      hvalue hhi h
    exact ⟨⟨_, hmul, hlt⟩, hnn.mpr h, hle⟩
  · obtain ⟨hmul, _⟩ := get_fixed_mul_pair_binary32_exact value max_bits max_shift is_signed
      hvalue hhi h
    refine ⟨hmul, ?_⟩
    have h127 : (get_fixed_mul_pair value max_bits max_shift is_signed).2 ≤ 127 := by
      have : ((max_shift : Nat) : Int) ≤ 127 := by exact_mod_cast hshift
      omega
    rw [get_fixed_mul_binary32_eq value max_bits max_shift is_signed hvalue hsign hlo hhi h,
      int8_cast_of_small (hnn.mpr h) h127]
  · exact get_fixed_mul_binary32_outside value max_bits max_shift is_signed hsign h

/-- Witness for C6 amended: the signed call on `value = 3` with `max_bits = 9`, so 8 bits of
magnitude, and `max_shift = 8` is representable and returns the computed pair. -/
theorem fixed_mul_bounds_iff_witness :
    (get_fixed_mul_pair_binary32 3 9 8 true).1 =
        some (3 * 2 ^ (get_fixed_mul_pair_binary32 3 9 8 true).2) ∧
      quantizer.get_fixed_mul_binary32 3 9 8 true =
        .ok ⟨3 * 2 ^ (get_fixed_mul_pair_binary32 3 9 8 true).2,
          (get_fixed_mul_pair_binary32 3 9 8 true).2⟩ :=
  (fixed_mul_bounds_iff 3 9 8 true is_binary32_three (fun _ => by norm_num) (by norm_num)
    (by norm_num) (by norm_num)).2.1 (by norm_num [abs_of_pos])

/-- C7 at its failing input, a shift above 127: for `value = 2^-100`, 32 unsigned bits and
`max_shift = 255` the computed pair `(2^31, 131)` reconstructs the value exactly and passes the
three assertions, but the returned shift is `static_cast<int8_t>(131) = -125`, and the returned
pair reconstructs `2^31 * 2^125`, far from the value. -/
theorem fixed_mul_round_trip_failure :
    get_fixed_mul_pair_binary32 (1 / 2 ^ 100) 32 255 false = (some (2 ^ 31), 131) ∧
    |(1 / 2 ^ 100 : ℚ) - 2 ^ 31 * 2 ^ (-(131 : Int))| ≤ float_epsilon ∧
    quantizer.get_fixed_mul_binary32 (1 / 2 ^ 100) 32 255 false = .ok ⟨2 ^ 31, -125⟩ ∧
    ¬(|(1 / 2 ^ 100 : ℚ) - 2 ^ 31 * 2 ^ (-(-125 : Int))| ≤ float_epsilon) := by
  refine ⟨get_fixed_mul_pair_binary32_tiny_32, ?_, get_fixed_mul_binary32_tiny_32, ?_⟩
  · norm_num [float_epsilon]
  · rw [abs_sub_comm, abs_of_pos (by norm_num)]
    norm_num [float_epsilon]

/-! ## Agreement of the two readings of `get_fixed_mul` -/

/-- On a binary32 value of the representable domain, with `bits` in `-1074..128`, the binary32
`get_fixed_mul` and the exact one return the same `fixed_mul`, and the binary32 multiplier is
the exact one. -/
theorem get_fixed_mul_binary32_eq_exact (value : ℚ) (max_bits : Int) (max_shift : Nat)
    (is_signed : Bool) (hvalue : is_binary32 value) (hsign : is_signed = true → 0 ≤ value)
    (hlo : -1074 ≤ fixed_mul_bits max_bits is_signed)
    (hhi : fixed_mul_bits max_bits is_signed ≤ 128)
    (hdom : |value| < 2 ^ fixed_mul_bits max_bits is_signed) :
    quantizer.get_fixed_mul_binary32 value max_bits max_shift is_signed =
        quantizer.get_fixed_mul value max_bits max_shift is_signed ∧
      get_fixed_mul_pair_binary32 value max_bits max_shift is_signed =
        (some (get_fixed_mul_pair value max_bits max_shift is_signed).1,
          (get_fixed_mul_pair value max_bits max_shift is_signed).2) := by
  obtain ⟨hmul, _⟩ := get_fixed_mul_pair_binary32_exact value max_bits max_shift is_signed hvalue
    hhi hdom
  constructor
  · rw [get_fixed_mul_binary32_eq value max_bits max_shift is_signed hvalue hsign hlo hhi hdom,
      get_fixed_mul_eq value max_bits max_shift is_signed hsign, if_pos hdom,
      ← get_fixed_mul_pair_mul]
  · refine Prod.ext ?_ (get_fixed_mul_pair_binary32_shift value max_bits max_shift is_signed)
    rw [hmul, ← get_fixed_mul_pair_mul]

end nncase
